import Mathlib

/-!
Verification development for the toco object-persistence layer
(src/toco/object.py).  We shallowly embed the pieces of the module that
the specification's claims are about:

* the Python value universe that flows through the attribute store and
  the JSON wire formats (`PyVal`);
* the JSON serializer/parser pair modelling the stdlib `json` module as
  used by the code (`ensure_ascii` escaping, configurable separators,
  `sort_keys`);
* UTF-8 and url-safe base64 as used by the pagination-token codec;
* the foreign-key codec (`is_foreign_key`, `_foreign_key`);
* the persistent-object state (`TObj`) with `__setattr__`,
  `__getattribute__`, `__init__`, `_save`, `_store`, `_create`,
  `_update`, `_reload`, `_from_fkey`;
* the conditional-write gateway (`putItem` over a single-row table
  model) and the search-parameter preprocessing;
* the per-type compound-attribute registry with Python's
  class-attribute resolution and in-place dict mutation semantics.

Model boundaries (noted again at the definitions): Python `float`,
`datetime` and `Decimal` values are outside `PyVal` (no claim exercises
them); `json.loads` is modelled for integer numerals and without lone
surrogate escapes; the base64 decoder is modelled on its lenient
behaviour for well-formed alphabets with trailing padding, which is the
behaviour the codec relies on.
-/

/-- Reserved attribute name holding the optimistic-concurrency version
counter (module constant VERSION_KEY). -/
def VERSION_KEY : String := "version_toco_"

/-- Module constant JSON_CLASS. -/
def JSON_CLASS : String := "_class_toco"

/-- Module constant JSON_FKEY. -/
def JSON_FKEY : String := "_fkey_toco"

/-- Module constant FKEY_PREFIX, the fixed prefix of foreign-key
reference strings. -/
def FKEY_PREFIX : String := "toco_fkey="

/-- Module constant FKEY_EMPTY_STRING, the sentinel encoding of the
empty string (DynamoDB historically rejected empty string values). -/
def FKEY_EMPTY_STRING : String := FKEY_PREFIX ++ "EMPTY-STRING"

/-- The universe of Python values handled by the layer, restricted to
the JSON-representable values the claims exercise.  Python dicts are
insertion-ordered association lists; `float`/`datetime`/`Decimal` are
outside the model. -/
inductive PyVal where
  | null : PyVal
  | bool : Bool → PyVal
  | int : Int → PyVal
  | str : String → PyVal
  | arr : List PyVal → PyVal
  | obj : List (String × PyVal) → PyVal

mutual
/-- Structural equality on `PyVal` (used for DynamoDB attribute
comparison in condition expressions). -/
def PyVal.beq : PyVal → PyVal → Bool
  | .null, .null => true
  | .bool a, .bool b => a == b
  | .int a, .int b => a == b
  | .str a, .str b => a == b
  | .arr a, .arr b => beqValList a b
  | .obj a, .obj b => beqValObj a b
  | _, _ => false

/-- List version of `PyVal.beq`. -/
def beqValList : List PyVal → List PyVal → Bool
  | [], [] => true
  | v :: vs, w :: ws => PyVal.beq v w && beqValList vs ws
  | _, _ => false

/-- Dict-entry version of `PyVal.beq`. -/
def beqValObj : List (String × PyVal) → List (String × PyVal) → Bool
  | [], [] => true
  | (k, v) :: vs, (k', w) :: ws => k == k' && PyVal.beq v w && beqValObj vs ws
  | _, _ => false
end

/-- Lookup in a Python dict modelled as an association list (keys are
unique in any dict produced by Python, so first match is the match). -/
def dictGet {α : Type} : List (String × α) → String → Option α
  | [], _ => none
  | (k', v) :: rest, k => if k' = k then some v else dictGet rest k

/-- Assignment d[k] = v on a Python dict: update in place if the key
exists (keeping its position), else append. -/
def dictSet {α : Type} : List (String × α) → String → α → List (String × α)
  | [], k, v => [(k, v)]
  | (k', v') :: rest, k, v =>
      if k' = k then (k', v) :: rest else (k', v') :: dictSet rest k v

/-- Deletion del d[k] on a Python dict. -/
def dictDel {α : Type} (d : List (String × α)) (k : String) : List (String × α) :=
  d.filter (fun p => p.1 ≠ k)

/-- The key view of a Python dict. -/
def listKeys {α : Type} (d : List (String × α)) : List String :=
  d.map Prod.fst

/-- Building a Python dict by successive assignment from a pair list
(the way json.loads builds objects, so later duplicates win). -/
def dictFromList (l : List (String × PyVal)) : List (String × PyVal) :=
  l.foldl (fun d p => dictSet d p.1 p.2) []

/-- Python truthiness of a value, as used by validation (`not d[r]`). -/
def pyFalsy : PyVal → Bool
  | .null => true
  | .bool b => !b
  | .int n => n == 0
  | .str s => s.isEmpty
  | .arr l => l.isEmpty
  | .obj l => l.isEmpty

/-- Key lists without duplicates, decidably. -/
def noDupKeys : List (String × PyVal) → Bool
  | [] => true
  | (k, _) :: rest => (dictGet rest k).isNone && noDupKeys rest

mutual
/-- Well-formedness of a value as a Python data tree: every dict level
has pairwise-distinct keys (true of every dict a Python program can
hold).  Round-trip statements are relative to this invariant. -/
def PyVal.wfKeys : PyVal → Bool
  | .null => true
  | .bool _ => true
  | .int _ => true
  | .str _ => true
  | .arr l => wfKeysList l
  | .obj l => noDupKeys l && wfKeysObj l

/-- List version of `PyVal.wfKeys`. -/
def wfKeysList : List PyVal → Bool
  | [] => true
  | v :: rest => v.wfKeys && wfKeysList rest

/-- Object-entry version of `PyVal.wfKeys`. -/
def wfKeysObj : List (String × PyVal) → Bool
  | [] => true
  | (_, v) :: rest => v.wfKeys && wfKeysObj rest
end

mutual
/-- Python equality `==` between values: structural, except dicts
compare as finite maps (order-insensitive). -/
def pyEqB : PyVal → PyVal → Bool
  | .null, .null => true
  | .bool a, .bool b => a == b
  | .int a, .int b => a == b
  | .str a, .str b => a == b
  | .arr a, .arr b => pyEqListB a b
  | .obj a, .obj b => pyEqObjB a b && b.all (fun p => (dictGet a p.1).isSome)
  | _, _ => false

/-- Elementwise Python equality of lists. -/
def pyEqListB : List PyVal → List PyVal → Bool
  | [], [] => true
  | v :: vs, w :: ws => pyEqB v w && pyEqListB vs ws
  | _, _ => false

/-- One inclusion of Python dict equality: every entry of the first dict
is present and equal in the second. -/
def pyEqObjB : List (String × PyVal) → List (String × PyVal) → Bool
  | [], _ => true
  | (k, v) :: rest, b =>
      (match dictGet b k with
       | some w => pyEqB v w
       | none => false) && pyEqObjB rest b
end

mutual
/-- Module function ensure_ddbsafe: empty strings become the sentinel,
containers are processed recursively, everything else passes through.
(The float→Decimal and datetime→string branches concern values outside
`PyVal`.) -/
def ensureDdbsafe : PyVal → PyVal
  | .str s => if s.isEmpty then .str FKEY_EMPTY_STRING else .str s
  | .arr l => .arr (ensureDdbsafeList l)
  | .obj l => .obj (ensureDdbsafeObj l)
  | v => v

/-- List version of `ensureDdbsafe`. -/
def ensureDdbsafeList : List PyVal → List PyVal
  | [] => []
  | v :: rest => ensureDdbsafe v :: ensureDdbsafeList rest

/-- Dict version of `ensureDdbsafe`. -/
def ensureDdbsafeObj : List (String × PyVal) → List (String × PyVal)
  | [] => []
  | (k, v) :: rest => (k, ensureDdbsafe v) :: ensureDdbsafeObj rest
end

mutual
/-- Module function load_constant_fkeys: the sentinel string decodes
back to "", containers are processed recursively. -/
def loadConstantFkeys : PyVal → PyVal
  | .str s => if s = FKEY_EMPTY_STRING then .str "" else .str s
  | .arr l => .arr (loadConstantFkeysList l)
  | .obj l => .obj (loadConstantFkeysObj l)
  | v => v

/-- List version of `loadConstantFkeys`. -/
def loadConstantFkeysList : List PyVal → List PyVal
  | [] => []
  | v :: rest => loadConstantFkeys v :: loadConstantFkeysList rest

/-- Dict version of `loadConstantFkeys`. -/
def loadConstantFkeysObj : List (String × PyVal) → List (String × PyVal)
  | [] => []
  | (k, v) :: rest => (k, loadConstantFkeys v) :: loadConstantFkeysObj rest
end

/-- Substring test "pat in s" on character lists. -/
def listContainsSub (pat : List Char) : List Char → Bool
  | [] => pat.isEmpty
  | c :: rest => List.isPrefixOf pat (c :: rest) || listContainsSub pat rest

/-- The reserved internal naming patterns stripped by
TocoObject._get_data_dict: names starting with "toco_" or "_", ending
with "_toco", or containing "_toco_" (string tests spelled on the
character lists). -/
def reservedName (k : String) : Bool :=
  List.isPrefixOf "toco_".data k.data || List.isSuffixOf "_toco".data k.data ||
    listContainsSub "_toco_".data k.data || List.isPrefixOf "_".data k.data

/-- Decimal digit character for d < 10. -/
def digitCh (d : Nat) : Char := Char.ofNat (48 + d % 10)

/-- Decimal digits of a natural number, most significant first
(modelling Python's rendering of a non-negative int). -/
def natDumps (n : Nat) : List Char :=
  if h : n < 10 then [digitCh n]
  else natDumps (n / 10) ++ [digitCh (n % 10)]
decreasing_by exact Nat.div_lt_self (by omega) (by omega)

/-- Python's rendering of an int. -/
def intDumps (n : Int) : List Char :=
  if n < 0 then '-' :: natDumps n.natAbs else natDumps n.natAbs

/-- Lowercase hex digit character for d < 16. -/
def hexCh (d : Nat) : Char :=
  if d < 10 then Char.ofNat (48 + d) else Char.ofNat (87 + d)

/-- Four-digit lowercase hex rendering used by json's \u escapes. -/
def hex4 (n : Nat) : List Char :=
  [hexCh (n / 4096 % 16), hexCh (n / 256 % 16), hexCh (n / 16 % 16), hexCh (n % 16)]

/-- Escape of a single character in a JSON string literal, following
json.dumps with ensure_ascii=True: the two-character escapes, printable
ASCII verbatim, everything else as \uXXXX (astral characters as a
surrogate pair). -/
def escapeChar (c : Char) : List Char :=
  if c = '"' then ['\\', '"']
  else if c = '\\' then ['\\', '\\']
  else if c = '\n' then ['\\', 'n']
  else if c = '\r' then ['\\', 'r']
  else if c = '\t' then ['\\', 't']
  else if c.toNat = 8 then ['\\', 'b']
  else if c.toNat = 12 then ['\\', 'f']
  else if 0x20 ≤ c.toNat && c.toNat ≤ 0x7e then [c]
  else if c.toNat < 0x10000 then '\\' :: 'u' :: hex4 c.toNat
  else
    let v := c.toNat - 0x10000
    ('\\' :: 'u' :: hex4 (0xd800 + v / 0x400)) ++ ('\\' :: 'u' :: hex4 (0xdc00 + v % 0x400))

/-- Escaped body of a JSON string literal including the closing
quote. -/
def escapeStr : List Char → List Char
  | [] => ['"']
  | c :: rest => escapeChar c ++ escapeStr rest

/-- JSON rendering of a string (both quotes included). -/
def strDumps (s : String) : List Char := '"' :: escapeStr s.data

mutual
/-- json.dumps with item separator ','++iws and key separator ':'++kws
(Python's defaults are iws=[' '], kws=[' ']; the foreign-key codec
passes compact separators iws=[], kws=[]). -/
def dumpsVal (iws kws : List Char) : PyVal → List Char
  | .null => 'n' :: ['u', 'l', 'l']
  | .bool true => 't' :: ['r', 'u', 'e']
  | .bool false => 'f' :: ['a', 'l', 's', 'e']
  | .int n => intDumps n
  | .str s => strDumps s
  | .arr [] => ['[', ']']
  | .arr (v :: l) => '[' :: (dumpsVal iws kws v ++ dumpsArrTail iws kws l)
  | .obj [] => ['\x7b', '\x7d']
  | .obj ((k, v) :: l) =>
      '\x7b' :: (strDumps k ++ (':' :: kws) ++ dumpsVal iws kws v ++ dumpsObjTail iws kws l)

/-- Remaining elements of an array, starting at the separator before
each and ending with the closing bracket. -/
def dumpsArrTail (iws kws : List Char) : List PyVal → List Char
  | [] => [']']
  | v :: l => (',' :: iws) ++ dumpsVal iws kws v ++ dumpsArrTail iws kws l

/-- Remaining entries of an object, starting at the separator before
each and ending with the closing brace. -/
def dumpsObjTail (iws kws : List Char) : List (String × PyVal) → List Char
  | [] => ['\x7d']
  | (k, v) :: l =>
      (',' :: iws) ++ strDumps k ++ (':' :: kws) ++ dumpsVal iws kws v ++ dumpsObjTail iws kws l
end

/-- JSON whitespace as accepted by json.loads. -/
def isWsC (c : Char) : Bool := c = ' ' || c = '\t' || c = '\n' || c = '\r'

/-- Skipping leading whitespace. -/
def skipWs (cs : List Char) : List Char := cs.dropWhile isWsC

/-- Head test for the character-level dispatch of the parser. -/
def headIs (cs : List Char) (c : Char) : Bool :=
  match cs with
  | c' :: _ => c' = c
  | [] => false

/-- Construction of a character from a code point, failing on values
that are not unicode scalar values. -/
def mkChar (n : Nat) : Option Char :=
  if n.isValidChar then some (Char.ofNat n) else none

/-- Value of a hex digit character. -/
def hexVal (c : Char) : Option Nat :=
  if 48 ≤ c.toNat && c.toNat ≤ 57 then some (c.toNat - 48)
  else if 97 ≤ c.toNat && c.toNat ≤ 102 then some (c.toNat - 87)
  else if 65 ≤ c.toNat && c.toNat ≤ 70 then some (c.toNat - 55)
  else none

/-- Simple one-letter JSON escapes. -/
def simpleEsc (e : Char) : Option Char :=
  if e = '"' then some '"'
  else if e = '\\' then some '\\'
  else if e = '/' then some '/'
  else if e = 'n' then some '\n'
  else if e = 'r' then some '\r'
  else if e = 't' then some '\t'
  else if e = 'b' then some '\x08'
  else if e = 'f' then some '\x0c'
  else none

/-- Four hex digits, combined into a code unit. -/
def parseHex4 : List Char → Option (Nat × List Char)
  | h1 :: h2 :: h3 :: h4 :: rest =>
      (match hexVal h1, hexVal h2, hexVal h3, hexVal h4 with
       | some a, some b, some c, some d => some ((((a * 16 + b) * 16 + c) * 16 + d : Nat), rest)
       | _, _, _, _ => none)
  | _ => none

/-- Decoder for one JSON escape sequence (after the backslash),
returning the decoded character and the remaining input.
Surrogate-pair escapes are recombined; lone surrogate escapes are
rejected (Python would build a lone-surrogate str, a value outside
Lean's `String` and outside what the codecs under study ever
produce). -/
def parseEsc : List Char → Option (Char × List Char)
  | [] => none
  | e :: rest =>
      if e = 'u' then
        match parseHex4 rest with
        | some (n, rest1) =>
            if 0xd800 ≤ n ∧ n ≤ 0xdbff then
              match rest1 with
              | c1 :: c2 :: rest2 =>
                  if c1 = '\\' ∧ c2 = 'u' then
                    match parseHex4 rest2 with
                    | some (m, rest3) =>
                        if 0xdc00 ≤ m ∧ m ≤ 0xdfff then
                          match mkChar (0x10000 + (n - 0xd800) * 0x400 + (m - 0xdc00)) with
                          | some ch => some (ch, rest3)
                          | none => none
                        else none
                    | none => none
                  else none
              | _ => none
            else
              match mkChar n with
              | some ch => some (ch, rest1)
              | none => none
        | none => none
      else (simpleEsc e).map (fun ch => (ch, rest))

/-- Parser for the body of a JSON string literal (after the opening
quote), returning the decoded characters and the input after the
closing quote.  The fuel argument only serves termination; any fuel
above the character count of the literal suffices. -/
def parseStrBody : Nat → List Char → Option (List Char × List Char)
  | 0, _ => none
  | f + 1, cs =>
      match cs with
      | [] => none
      | c :: rest =>
          if c = '"' then some ([], rest)
          else if c = '\\' then
            match parseEsc rest with
            | some (ch, rest1) => (parseStrBody f rest1).map (fun p => (ch :: p.1, p.2))
            | none => none
          else (parseStrBody f rest).map (fun p => (c :: p.1, p.2))


/-- Decimal digit test. -/
def isDigitC (c : Char) : Bool := 48 ≤ c.toNat && c.toNat ≤ 57

/-- Greedy digit munching with an accumulator, as a number lexer
does. -/
def munchDigits : List Char → Nat → Nat × List Char
  | [], acc => (acc, [])
  | c :: rest, acc =>
      if isDigitC c then munchDigits rest (acc * 10 + (c.toNat - 48))
      else (acc, c :: rest)

/-- Parser for a natural-number literal (at least one digit). -/
def parseNatL : List Char → Option (Nat × List Char)
  | [] => none
  | c :: rest =>
      if isDigitC c then some (munchDigits rest (c.toNat - 48))
      else none

/-- Parser for a JSON number restricted to the integer numerals the
layer ever writes (json.loads additionally accepts float syntax; no
claim exercises floats). -/
def parseNumber (cs : List Char) : Option (PyVal × List Char) :=
  if headIs cs '-' then (parseNatL cs.tail).map (fun p => (.int (-(p.1 : Int)), p.2))
  else (parseNatL cs).map (fun p => (.int (p.1 : Int), p.2))

mutual
/-- Recursive-descent parser for a JSON value, modelling json.loads.
The fuel argument only serves termination; any fuel at least the node
count of the value suffices. -/
def parseVal : Nat → List Char → Option (PyVal × List Char)
  | 0, _ => none
  | f + 1, cs =>
      match skipWs cs with
      | [] => none
      | c :: rest =>
          if c = 'n' then
            match rest with
            | 'u' :: 'l' :: 'l' :: r => some (.null, r)
            | _ => none
          else if c = 't' then
            match rest with
            | 'r' :: 'u' :: 'e' :: r => some (.bool true, r)
            | _ => none
          else if c = 'f' then
            match rest with
            | 'a' :: 'l' :: 's' :: 'e' :: r => some (.bool false, r)
            | _ => none
          else if c = '"' then
            (parseStrBody (rest.length + 1) rest).map (fun p => (.str (String.mk p.1), p.2))
          else if c = '[' then
            let r2 := skipWs rest
            if headIs r2 ']' then some (.arr [], r2.tail)
            else
              match parseVal f r2 with
              | some (v, r3) =>
                  (parseArrTail f r3).map (fun p => (.arr (v :: p.1), p.2))
              | none => none
          else if c = '\x7b' then
            let r2 := skipWs rest
            if headIs r2 '\x7d' then some (.obj [], r2.tail)
            else if headIs r2 '"' then
              match parseStrBody (r2.tail.length + 1) r2.tail with
              | some (k, r3) =>
                  let r4 := skipWs r3
                  if headIs r4 ':' then
                    match parseVal f r4.tail with
                    | some (v, r5) =>
                        (parseObjTail f r5).map
                          (fun p => (.obj (dictFromList ((String.mk k, v) :: p.1)), p.2))
                    | none => none
                  else none
              | none => none
            else none
          else parseNumber (c :: rest)

/-- Parser for the rest of a JSON array after an element: either a
separator and another element or the closing bracket. -/
def parseArrTail : Nat → List Char → Option (List PyVal × List Char)
  | 0, _ => none
  | f + 1, cs =>
      let r := skipWs cs
      if headIs r ',' then
        match parseVal f r.tail with
        | some (v, r2) => (parseArrTail f r2).map (fun p => (v :: p.1, p.2))
        | none => none
      else if headIs r ']' then some ([], r.tail)
      else none

/-- Parser for the rest of a JSON object after an entry: either a
separator and another entry or the closing brace. -/
def parseObjTail : Nat → List Char → Option (List (String × PyVal) × List Char)
  | 0, _ => none
  | f + 1, cs =>
      let r := skipWs cs
      if headIs r ',' then
        let r1 := skipWs r.tail
        if headIs r1 '"' then
          match parseStrBody (r1.tail.length + 1) r1.tail with
          | some (k, r2) =>
              let r3 := skipWs r2
              if headIs r3 ':' then
                match parseVal f r3.tail with
                | some (v, r4) =>
                    (parseObjTail f r4).map (fun p => ((String.mk k, v) :: p.1, p.2))
                | none => none
              else none
          | none => none
        else none
      else if headIs r '\x7d' then some ([], r.tail)
      else none
end

/-- json.loads on a character list: parse one value and require only
whitespace afterwards. -/
def jsonLoads (cs : List Char) : Option PyVal :=
  match parseVal (cs.length + 1) cs with
  | some (v, rest) => if (skipWs rest).isEmpty then some v else none
  | none => none

/-- Characters with different code points differ. -/
theorem charNeOfToNat {c d : Char} (h : c.toNat ≠ d.toNat) : c ≠ d :=
  fun he => h (by rw [he])

/-- Code point of `Char.ofNat` at a valid code point. -/
theorem toNatOfNatValid (n : Nat) (h : n.isValidChar) : (Char.ofNat n).toNat = n := by
  simp [Char.ofNat, h, Char.toNat, Char.ofNatAux, UInt32.toNat, BitVec.toNat_ofNat]

/-- Skipping whitespace is the identity on inputs with a non-blank
head. -/
theorem skipWs_cons (c : Char) (cs : List Char) (h : isWsC c = false) :
    skipWs (c :: cs) = c :: cs := by
  simp [skipWs, List.dropWhile, h]

/-- Skipping whitespace consumes an all-blank prefix. -/
theorem skipWs_wsAppend (ws l : List Char) (h : ws.all isWsC = true) :
    skipWs (ws ++ l) = skipWs l := by
  induction ws with
  | nil => rfl
  | cons c cs ih =>
      simp only [List.all_cons, Bool.and_eq_true] at h
      simp [skipWs, List.dropWhile, h.1, skipWs_wsAppend cs l]
      exact ih h.2

/-- Digit characters are the code points 48–57. -/
theorem isDigitC_iff {c : Char} : isDigitC c = true ↔ 48 ≤ c.toNat ∧ c.toNat ≤ 57 := by
  simp [isDigitC]

/-- Digit characters are not blanks. -/
theorem isWsC_false_of_digit {c : Char} (h : isDigitC c = true) : isWsC c = false := by
  rw [isDigitC_iff] at h
  have h32 : c ≠ ' ' := charNeOfToNat (by simp only [show (' ' : Char).toNat = 32 from rfl]; omega)
  have h9 : c ≠ '\t' := charNeOfToNat (by simp only [show ('\t' : Char).toNat = 9 from rfl]; omega)
  have h10 : c ≠ '\n' := charNeOfToNat (by simp only [show ('\n' : Char).toNat = 10 from rfl]; omega)
  have h13 : c ≠ '\r' := charNeOfToNat (by simp only [show ('\r' : Char).toNat = 13 from rfl]; omega)
  simp [isWsC, h32, h9, h10, h13]

/-- The value of `digitCh` is its digit. -/
theorem toNat_digitCh (d : Nat) : (digitCh d).toNat = 48 + d % 10 := by
  have : (48 + d % 10).isValidChar := by
    left
    omega
  simp [digitCh, toNatOfNatValid _ this]

/-- `digitCh` produces digit characters. -/
theorem isDigitC_digitCh (d : Nat) : isDigitC (digitCh d) = true := by
  rw [isDigitC_iff, toNat_digitCh]
  omega

/-- Every character of `natDumps` is a digit. -/
theorem natDumps_all_digits (n : Nat) : (natDumps n).all isDigitC = true := by
  rw [natDumps]
  split
  · simp [isDigitC_digitCh]
  · rename_i h
    rw [List.all_append]
    simp [isDigitC_digitCh, natDumps_all_digits (n / 10)]
decreasing_by exact Nat.div_lt_self (by omega) (by omega)

/-- `natDumps` is never empty. -/
theorem natDumps_ne_nil (n : Nat) : natDumps n ≠ [] := by
  rw [natDumps]
  split
  · simp
  · simp

/-- Greedy digit munching across a digit block followed by a non-digit
(or empty) remainder. -/
theorem munchDigits_append (ds : List Char) :
    ∀ acc rest, ds.all isDigitC = true →
      (match rest with
       | [] => True
       | c :: _ => isDigitC c = false) →
      munchDigits (ds ++ rest) acc =
        (ds.foldl (fun a c => a * 10 + (c.toNat - 48)) acc, rest) := by
  induction ds with
  | nil =>
      intro acc rest _ hrest
      match rest with
      | [] => rfl
      | c :: r =>
          simp only at hrest
          simp [munchDigits, hrest]
  | cons c cs ih =>
      intro acc rest hds hrest
      simp only [List.all_cons, Bool.and_eq_true] at hds
      simp [munchDigits, hds.1, ih _ rest hds.2 hrest]

/-- Folding the digit step over the digits of n recovers n (shifted by
the accumulator). -/
theorem foldl_natDumps (n : Nat) :
    ∀ acc, (natDumps n).foldl (fun a c => a * 10 + (c.toNat - 48)) acc =
      acc * 10 ^ (natDumps n).length + n := by
  rw [natDumps]
  split
  · rename_i h
    intro acc
    simp [toNat_digitCh]
    omega
  · rename_i h
    intro acc
    rw [List.foldl_append, foldl_natDumps (n / 10) acc]
    simp [toNat_digitCh, List.length_append]
    rw [Nat.pow_succ]
    have : n % 10 < 10 := Nat.mod_lt _ (by omega)
    ring_nf
    omega
decreasing_by exact Nat.div_lt_self (by omega) (by omega)

/-- Parsing the decimal rendering of n yields n and leaves a non-digit
remainder untouched. -/
theorem parseNatL_natDumps (n : Nat) (rest : List Char)
    (hrest : match rest with
             | [] => True
             | c :: _ => isDigitC c = false) :
    parseNatL (natDumps n ++ rest) = some (n, rest) := by
  obtain ⟨c, ds, hds⟩ : ∃ c ds, natDumps n = c :: ds := by
    match h : natDumps n with
    | [] => exact absurd h (natDumps_ne_nil n)
    | c :: ds => exact ⟨c, ds, rfl⟩
  have hall := natDumps_all_digits n
  rw [hds] at hall
  simp only [List.all_cons, Bool.and_eq_true] at hall
  rw [hds]
  simp only [List.cons_append, parseNatL, hall.1, if_true]
  rw [munchDigits_append ds _ rest hall.2 hrest]
  have hf := foldl_natDumps n 0
  rw [hds] at hf
  simp only [List.foldl_cons, Nat.zero_mul, Nat.zero_add] at hf
  rw [hf]


/-- Parsing the rendering of an int yields it back (with a non-digit
remainder). -/
theorem parseNumber_intDumps (n : Int) (rest : List Char)
    (hrest : match rest with
             | [] => True
             | c :: _ => isDigitC c = false) :
    parseNumber (intDumps n ++ rest) = some (.int n, rest) := by
  by_cases hn : n < 0
  · simp only [intDumps, hn, if_true, List.cons_append]
    have hh : headIs ('-' :: (natDumps n.natAbs ++ rest)) '-' = true := rfl
    simp only [parseNumber, hh, if_true, List.tail_cons]
    rw [parseNatL_natDumps _ rest hrest]
    have he : -(n.natAbs : Int) = n := by omega
    show some (PyVal.int (-(n.natAbs : Int)), rest) = some (.int n, rest)
    rw [he]
  · simp only [intDumps, hn, if_false]
    obtain ⟨c, ds, hds⟩ : ∃ c ds, natDumps n.natAbs = c :: ds := by
      match h : natDumps n.natAbs with
      | [] => exact absurd h (natDumps_ne_nil _)
      | c :: ds => exact ⟨c, ds, rfl⟩
    have hall := natDumps_all_digits n.natAbs
    rw [hds] at hall
    simp only [List.all_cons, Bool.and_eq_true] at hall
    have hcd := isDigitC_iff.mp hall.1
    have hcm : c ≠ '-' :=
      charNeOfToNat (by simp only [show ('-' : Char).toNat = 45 from rfl]; omega)
    have hh : headIs (natDumps n.natAbs ++ rest) '-' = false := by
      rw [hds]
      simp only [List.cons_append, headIs]
      simp [hcm]
    simp only [parseNumber, hh, Bool.false_eq_true, if_false]
    rw [parseNatL_natDumps _ rest hrest]
    have he : (n.natAbs : Int) = n := by omega
    show some (PyVal.int ((n.natAbs : Int)), rest) = some (.int n, rest)
    rw [he]

/-- Hex digits round-trip through `hexCh`. -/
theorem hexVal_hexCh (d : Nat) (h : d < 16) : hexVal (hexCh d) = some d := by
  by_cases h10 : d < 10
  · have hv : (48 + d).isValidChar := Or.inl (by omega)
    have ht : (hexCh d).toNat = 48 + d := by
      simp only [hexCh, h10, if_true]
      exact toNatOfNatValid _ hv
    have hc1 : (48 ≤ 48 + d && 48 + d ≤ 57) = true := by simp; omega
    simp only [hexVal, ht, hc1, if_true]
    rw [Nat.add_sub_cancel_left]
  · have hv : (87 + d).isValidChar := Or.inl (by omega)
    have ht : (hexCh d).toNat = 87 + d := by
      simp only [hexCh, h10, if_false]
      exact toNatOfNatValid _ hv
    have hc1 : (48 ≤ 87 + d && 87 + d ≤ 57) = false := by simp; omega
    have hc2 : (97 ≤ 87 + d && 87 + d ≤ 102) = true := by simp; omega
    simp only [hexVal, ht, hc1, hc2, Bool.false_eq_true, if_false, if_true]
    rw [Nat.add_sub_cancel_left]

/-- Validity of every character's code point, in `Nat` form. -/
theorem charValidNat (c : Char) : c.toNat.isValidChar := c.valid

/-- `mkChar` inverts `Char.toNat`. -/
theorem mkChar_toNat (c : Char) : mkChar c.toNat = some c := by
  simp [mkChar, charValidNat c, Char.ofNat_toNat]

/-- Code points of characters avoid the surrogate range. -/
theorem char_not_surrogate (c : Char) : c.toNat < 0xd800 ∨ 0xdfff < c.toNat := by
  rcases charValidNat c with h | h
  · left; exact h
  · right; exact h.1

/-- Code points of characters stay below 0x110000. -/
theorem char_lt (c : Char) : c.toNat < 0x110000 := by
  rcases charValidNat c with h | h
  · omega
  · exact h.2

/-- Appending four hex digits parses back to their value. -/
theorem parseHex4_hexCh (a b c d : Nat) (ha : a < 16) (hb : b < 16) (hc : c < 16)
    (hd : d < 16) (rest : List Char) :
    parseHex4 (hexCh a :: hexCh b :: hexCh c :: hexCh d :: rest) =
      some ((((a * 16 + b) * 16 + c) * 16 + d : Nat), rest) := by
  simp only [parseHex4, hexVal_hexCh _ ha, hexVal_hexCh _ hb, hexVal_hexCh _ hc, hexVal_hexCh _ hd]

/-- Parsing the four-digit hex escape payload of a code point below
0x10000 recovers it. -/
theorem parseHex4_hex4 (n : Nat) (hn : n < 0x10000) (rest : List Char) :
    parseHex4 (hex4 n ++ rest) = some (n, rest) := by
  simp only [hex4, List.cons_append, List.nil_append]
  rw [parseHex4_hexCh _ _ _ _ (by omega) (by omega) (by omega) (by omega)]
  have : ((n / 4096 % 16 * 16 + n / 256 % 16) * 16 + n / 16 % 16) * 16 + n % 16 = n := by
    omega
  rw [this]

/-- Decoding a surrogate-pair escape payload (after the backslash)
recovers the astral character. -/
theorem parseEsc_surrogatePayload (c : Char) (tail : List Char) (hge : 0x10000 ≤ c.toNat) :
    parseEsc ('u' :: (hex4 (0xd800 + (c.toNat - 0x10000) / 0x400) ++
        ('\\' :: 'u' :: (hex4 (0xdc00 + (c.toNat - 0x10000) % 0x400) ++ tail)))) =
      some (c, tail) := by
  have hlt := char_lt c
  have hdiv : (c.toNat - 0x10000) / 0x400 < 0x400 := by omega
  have hmod : (c.toNat - 0x10000) % 0x400 < 0x400 := by omega
  have hs1 : 0xd800 ≤ 0xd800 + (c.toNat - 0x10000) / 0x400 ∧
      0xd800 + (c.toNat - 0x10000) / 0x400 ≤ 0xdbff := by omega
  have hs2 : 0xdc00 ≤ 0xdc00 + (c.toNat - 0x10000) % 0x400 ∧
      0xdc00 + (c.toNat - 0x10000) % 0x400 ≤ 0xdfff := by omega
  have hcomb : 0x10000 + (0xd800 + (c.toNat - 0x10000) / 0x400 - 0xd800) * 0x400 +
      (0xdc00 + (c.toNat - 0x10000) % 0x400 - 0xdc00) = c.toNat := by omega
  simp only [parseEsc, reduceIte,
    parseHex4_hex4 _ (by omega : 0xd800 + (c.toNat - 0x10000) / 0x400 < 0x10000)]
  rw [if_pos hs1]
  simp only [reduceIte,
    parseHex4_hex4 _ (by omega : 0xdc00 + (c.toNat - 0x10000) % 0x400 < 0x10000)]
  rw [if_pos hs2]
  rw [hcomb]
  simp only [mkChar_toNat]
  simp

/-- Decoding a BMP hex escape payload (after the backslash) recovers
the character. -/
theorem parseEsc_bmpPayload (c : Char) (tail : List Char) (hlt : c.toNat < 0x10000) :
    parseEsc ('u' :: (hex4 c.toNat ++ tail)) = some (c, tail) := by
  have hsur : ¬(0xd800 ≤ c.toNat ∧ c.toNat ≤ 0xdbff) := by
    rcases char_not_surrogate c with h | h <;> omega
  simp only [parseEsc, reduceIte, parseHex4_hex4 c.toNat hlt]
  rw [if_neg hsur]
  simp only [mkChar_toNat]

/-- One step of the string-body parser at an escape whose payload
decodes. -/
theorem parseStrBody_stepEsc (f : Nat) (rest rest1 : List Char) (ch : Char)
    (h : parseEsc rest = some (ch, rest1)) :
    parseStrBody (f + 1) ('\\' :: rest) =
      (parseStrBody f rest1).map (fun p => (ch :: p.1, p.2)) := by
  simp only [parseStrBody, h]
  rw [if_neg (show ('\\' : Char) = '"' → False by decide), if_pos trivial]

/-- One step of the string-body parser at a plain character. -/
theorem parseStrBody_stepPlain (f : Nat) (c : Char) (rest : List Char)
    (h1 : c ≠ '"') (h2 : c ≠ '\\') :
    parseStrBody (f + 1) (c :: rest) =
      (parseStrBody f rest).map (fun p => (c :: p.1, p.2)) := by
  simp only [parseStrBody]
  rw [if_neg h1, if_neg h2]

/-- Decoding a simple escape (after the backslash) recovers the
character. -/
theorem parseEsc_simple (e ch : Char) (rest : List Char) (he : e ≠ 'u')
    (h : simpleEsc e = some ch) :
    parseEsc (e :: rest) = some (ch, rest) := by
  simp only [parseEsc, if_neg he, h, Option.map]

/-- Consuming one escaped character from a string body: parsing the
escape of c prepends c to whatever the remainder parses to. -/
theorem parseStrBody_escapeChar (c : Char) (f : Nat) (tail : List Char) :
    parseStrBody (f + 1) (escapeChar c ++ tail) =
      (parseStrBody f tail).map (fun p => (c :: p.1, p.2)) := by
  by_cases h1 : c = '"'
  · have hE : escapeChar c = ['\\', '"'] := by rw [escapeChar]; simp [h1]
    rw [hE, List.cons_append, List.cons_append, List.nil_append, h1,
      parseStrBody_stepEsc f _ tail '"' (parseEsc_simple '"' '"' tail (by decide) rfl)]
  · by_cases h2 : c = '\\'
    · have hE : escapeChar c = ['\\', '\\'] := by rw [escapeChar]; simp [h1, h2]
      rw [hE, List.cons_append, List.cons_append, List.nil_append, h2,
        parseStrBody_stepEsc f _ tail '\\' (parseEsc_simple '\\' '\\' tail (by decide) rfl)]
    · by_cases h3 : c = '\n'
      · have hE : escapeChar c = ['\\', 'n'] := by rw [escapeChar]; simp [h1, h2, h3]
        rw [hE, List.cons_append, List.cons_append, List.nil_append, h3,
          parseStrBody_stepEsc f _ tail '\n' (parseEsc_simple 'n' '\n' tail (by decide) rfl)]
      · by_cases h4 : c = '\r'
        · have hE : escapeChar c = ['\\', 'r'] := by rw [escapeChar]; simp [h1, h2, h3, h4]
          rw [hE, List.cons_append, List.cons_append, List.nil_append, h4,
            parseStrBody_stepEsc f _ tail '\r' (parseEsc_simple 'r' '\r' tail (by decide) rfl)]
        · by_cases h5 : c = '\t'
          · have hE : escapeChar c = ['\\', 't'] := by
              rw [escapeChar]; simp [h1, h2, h3, h4, h5]
            rw [hE, List.cons_append, List.cons_append, List.nil_append, h5,
              parseStrBody_stepEsc f _ tail '\t' (parseEsc_simple 't' '\t' tail (by decide) rfl)]
          · by_cases h6 : c.toNat = 8
            · have hc : c = '\x08' := by
                have := Char.ofNat_toNat c
                rw [h6] at this
                rw [← this]
              have hE : escapeChar c = ['\\', 'b'] := by
                rw [escapeChar]; simp [h1, h2, h3, h4, h5, h6]
              rw [hE, List.cons_append, List.cons_append, List.nil_append, hc,
                parseStrBody_stepEsc f _ tail '\x08' (parseEsc_simple 'b' '\x08' tail (by decide) rfl)]
            · by_cases h7 : c.toNat = 12
              · have hc : c = '\x0c' := by
                  have := Char.ofNat_toNat c
                  rw [h7] at this
                  rw [← this]
                have hE : escapeChar c = ['\\', 'f'] := by
                  rw [escapeChar]; simp [h1, h2, h3, h4, h5, h6, h7]
                rw [hE, List.cons_append, List.cons_append, List.nil_append, hc,
                  parseStrBody_stepEsc f _ tail '\x0c' (parseEsc_simple 'f' '\x0c' tail (by decide) rfl)]
              · by_cases h8 : (0x20 ≤ c.toNat && c.toNat ≤ 0x7e) = true
                · have hE : escapeChar c = [c] := by
                    rw [escapeChar]; simp [h1, h2, h3, h4, h5, h6, h7, h8]
                  rw [hE, List.cons_append, List.nil_append,
                    parseStrBody_stepPlain f c tail h1 h2]
                · by_cases h9 : c.toNat < 0x10000
                  · have hE : escapeChar c = '\\' :: 'u' :: hex4 c.toNat := by
                      rw [escapeChar]; simp [h1, h2, h3, h4, h5, h6, h7, h8, h9]
                    rw [hE, List.cons_append, List.cons_append,
                      parseStrBody_stepEsc f _ tail c (parseEsc_bmpPayload c tail h9)]
                  · have hge : 0x10000 ≤ c.toNat := by omega
                    have hE : escapeChar c = '\\' :: 'u' :: (hex4 (0xd800 + (c.toNat - 0x10000) / 0x400) ++
                        ('\\' :: 'u' :: hex4 (0xdc00 + (c.toNat - 0x10000) % 0x400))) := by
                      rw [escapeChar]; simp [h1, h2, h3, h4, h5, h6, h7, h8, h9]
                    rw [hE]
                    have harr : (('\\' :: 'u' :: (hex4 (0xd800 + (c.toNat - 0x10000) / 0x400) ++
                        ('\\' :: 'u' :: hex4 (0xdc00 + (c.toNat - 0x10000) % 0x400)))) ++ tail) =
                        '\\' :: ('u' :: (hex4 (0xd800 + (c.toNat - 0x10000) / 0x400) ++
                        ('\\' :: 'u' :: (hex4 (0xdc00 + (c.toNat - 0x10000) % 0x400) ++ tail)))) := by
                      simp
                    rw [harr,
                      parseStrBody_stepEsc f _ tail c (parseEsc_surrogatePayload c tail hge)]

/-- Every escape is at least one character long. -/
theorem escapeChar_length_pos (c : Char) : 1 ≤ (escapeChar c).length := by
  rw [escapeChar]
  split_ifs <;> simp

/-- The escaped body is longer than the character count of the
string. -/
theorem escapeStr_length (cs : List Char) : cs.length + 1 ≤ (escapeStr cs).length := by
  induction cs with
  | nil => simp [escapeStr]
  | cons c cs ih =>
      simp only [escapeStr, List.length_cons, List.length_append]
      have := escapeChar_length_pos c
      omega

/-- Parsing an escaped string body with enough fuel recovers the
characters and the remainder. -/
theorem parseStrBody_escapeStr (cs : List Char) :
    ∀ (f : Nat) (rest : List Char), cs.length < f →
      parseStrBody f (escapeStr cs ++ rest) = some (cs, rest) := by
  induction cs with
  | nil =>
      intro f rest hf
      match f, hf with
      | f' + 1, _ => simp [escapeStr, parseStrBody]
  | cons c cs ih =>
      intro f rest hf
      match f, hf with
      | f' + 1, hf =>
          simp only [escapeStr, List.append_assoc]
          rw [parseStrBody_escapeChar c f' (escapeStr cs ++ rest),
            ih f' rest (by simpa using Nat.lt_of_succ_lt_succ hf)]
          rfl

/-- Parsing a rendered string literal body with the parser's
self-supplied fuel. -/
theorem parseStrBody_full (s : String) (cont : List Char) :
    parseStrBody ((escapeStr s.data ++ cont).length + 1) (escapeStr s.data ++ cont) =
      some (s.data, cont) := by
  apply parseStrBody_escapeStr
  have := escapeStr_length s.data
  simp only [List.length_append]
  omega

mutual
/-- Fuel needed by `parseVal` on the rendering of a value. -/
def jsizeVal : PyVal → Nat
  | .null => 1
  | .bool _ => 1
  | .int _ => 1
  | .str _ => 1
  | .arr [] => 1
  | .arr (v :: l) => 1 + jsizeVal v + jsizeArr l
  | .obj [] => 1
  | .obj ((_, v) :: l) => 1 + jsizeVal v + jsizeObj l

/-- Fuel needed by `parseArrTail` on a rendered array tail. -/
def jsizeArr : List PyVal → Nat
  | [] => 1
  | v :: l => 1 + jsizeVal v + jsizeArr l

/-- Fuel needed by `parseObjTail` on a rendered object tail. -/
def jsizeObj : List (String × PyVal) → Nat
  | [] => 1
  | (_, v) :: l => 1 + jsizeVal v + jsizeObj l
end

/-- Positivity of the fuel bounds. -/
theorem jsizeVal_pos (v : PyVal) : 1 ≤ jsizeVal v := by
  match v with
  | .null | .bool _ | .int _ | .str _ => simp only [jsizeVal]; omega
  | .arr [] => simp only [jsizeVal]; omega
  | .arr (v :: l) => simp only [jsizeVal]; omega
  | .obj [] => simp only [jsizeVal]; omega
  | .obj ((k, v) :: l) => simp only [jsizeVal]; omega

/-- Positivity of the array-tail fuel bound. -/
theorem jsizeArr_pos (l : List PyVal) : 1 ≤ jsizeArr l := by
  match l with
  | [] => simp only [jsizeArr]; omega
  | v :: l => simp only [jsizeArr]; omega

/-- Positivity of the object-tail fuel bound. -/
theorem jsizeObj_pos (l : List (String × PyVal)) : 1 ≤ jsizeObj l := by
  match l with
  | [] => simp only [jsizeObj]; omega
  | (k, v) :: l => simp only [jsizeObj]; omega

/-- Digit test of the head of the remaining input. -/
def firstIsDigit : List Char → Bool
  | c :: _ => isDigitC c
  | [] => false

/-- The shape of hypothesis used by the number-parsing lemmas, derived
from `firstIsDigit`. -/
theorem restShape_of_firstIsDigit (rest : List Char) (h : firstIsDigit rest = false) :
    (match rest with
     | [] => True
     | c :: _ => isDigitC c = false) := by
  match rest with
  | [] => trivial
  | c :: r => simpa [firstIsDigit] using h

/-- The rendering of an int starts with a digit or a minus sign. -/
theorem intDumps_head (n : Int) :
    ∃ c cs, intDumps n = c :: cs ∧ (isDigitC c = true ∨ c = '-') := by
  by_cases hn : n < 0
  · exact ⟨'-', natDumps n.natAbs, by simp [intDumps, hn], Or.inr rfl⟩
  · obtain ⟨c, ds, hds⟩ : ∃ c ds, natDumps n.natAbs = c :: ds := by
      match h : natDumps n.natAbs with
      | [] => exact absurd h (natDumps_ne_nil _)
      | c :: ds => exact ⟨c, ds, rfl⟩
    have hall := natDumps_all_digits n.natAbs
    rw [hds] at hall
    simp only [List.all_cons, Bool.and_eq_true] at hall
    exact ⟨c, ds, by simp [intDumps, hn, hds], Or.inl hall.1⟩

/-- A number-start character routes the value parser into the number
parser. -/
theorem parseVal_step_num (f : Nat) (c : Char) (cs : List Char)
    (hd : isDigitC c = true ∨ c = '-') :
    parseVal (f + 1) (c :: cs) = parseNumber (c :: cs) := by
  have hts : c.toNat = 45 ∨ (48 ≤ c.toNat ∧ c.toNat ≤ 57) := by
    rcases hd with h | h
    · right; exact isDigitC_iff.mp h
    · left; subst h; rfl
  have h32 : c ≠ ' ' := charNeOfToNat (by simp only [show (' ' : Char).toNat = 32 from rfl]; omega)
  have h9 : c ≠ '\t' := charNeOfToNat (by simp only [show ('\t' : Char).toNat = 9 from rfl]; omega)
  have h10 : c ≠ '\n' := charNeOfToNat (by simp only [show ('\n' : Char).toNat = 10 from rfl]; omega)
  have h13 : c ≠ '\r' := charNeOfToNat (by simp only [show ('\r' : Char).toNat = 13 from rfl]; omega)
  have hws : isWsC c = false := by simp [isWsC, h32, h9, h10, h13]
  have hcn : c ≠ 'n' := charNeOfToNat (by simp only [show ('n' : Char).toNat = 110 from rfl]; omega)
  have hct : c ≠ 't' := charNeOfToNat (by simp only [show ('t' : Char).toNat = 116 from rfl]; omega)
  have hcf : c ≠ 'f' := charNeOfToNat (by simp only [show ('f' : Char).toNat = 102 from rfl]; omega)
  have hcq : c ≠ '"' := charNeOfToNat (by simp only [show ('"' : Char).toNat = 34 from rfl]; omega)
  have hcb : c ≠ '[' := charNeOfToNat (by simp only [show ('[' : Char).toNat = 91 from rfl]; omega)
  have hcr : c ≠ '\x7b' :=
    charNeOfToNat (by simp only [show ('\x7b' : Char).toNat = 123 from rfl]; omega)
  simp only [parseVal, skipWs_cons c cs hws]
  rw [if_neg hcn, if_neg hct, if_neg hcf, if_neg hcq, if_neg hcb, if_neg hcr]

/-- Absence of a key as a statement about all entries. -/
theorem dictGet_none_iff {α : Type} (l : List (String × α)) (k : String) :
    dictGet l k = none ↔ ∀ p ∈ l, p.1 ≠ k := by
  induction l with
  | nil => simp [dictGet]
  | cons p rest ih =>
      match p with
      | (k', v) =>
          by_cases hk : k' = k
          · simp [dictGet, hk]
          · simp [dictGet, hk, ih]

/-- Assignment with a fresh key appends the pair. -/
theorem dictSet_append {α : Type} (acc : List (String × α)) (k : String) (v : α)
    (h : dictGet acc k = none) : dictSet acc k v = acc ++ [(k, v)] := by
  induction acc with
  | nil => rfl
  | cons p rest ih =>
      match p with
      | (k', v') =>
          by_cases hk : k' = k
          · rw [dictGet, if_pos hk] at h
            exact absurd h (by simp)
          · rw [dictGet, if_neg hk] at h
            simp only [dictSet, if_neg hk, List.cons_append]
            rw [ih h]

/-- Lookup misses survive appending a pair with a different key. -/
theorem dictGet_append_none {α : Type} (acc : List (String × α)) (q k : String) (v : α)
    (h1 : dictGet acc q = none) (h2 : k ≠ q) :
    dictGet (acc ++ [(k, v)]) q = none := by
  induction acc with
  | nil => simp [dictGet, h2]
  | cons p rest ih =>
      match p with
      | (k', v') =>
          by_cases hk : k' = q
          · rw [dictGet, if_pos hk] at h1
            exact absurd h1 (by simp)
          · rw [dictGet, if_neg hk] at h1
            simp only [List.cons_append, dictGet, if_neg hk]
            exact ih h1

/-- Building a dict from entries with fresh, pairwise-distinct keys
appends them in order. -/
theorem foldl_dictSet (l : List (String × PyVal)) :
    ∀ acc, noDupKeys l = true → (∀ p ∈ l, dictGet acc p.1 = none) →
      l.foldl (fun d p => dictSet d p.1 p.2) acc = acc ++ l := by
  induction l with
  | nil => intro acc _ _; simp
  | cons p rest ih =>
      intro acc hnd hacc
      match p with
      | (k, v) =>
          simp only [noDupKeys, Bool.and_eq_true, Option.isNone_iff_eq_none] at hnd
          simp only [List.foldl_cons]
          rw [dictSet_append acc k v (hacc (k, v) (by simp))]
          rw [ih (acc ++ [(k, v)]) hnd.2 ?_]
          · simp
          · intro q hq
            apply dictGet_append_none
            · exact hacc q (by simp [hq])
            · have := (dictGet_none_iff rest k).mp hnd.1 q hq
              exact fun he => this he.symm

/-- json.loads-style dict building is the identity on duplicate-free
entry lists. -/
theorem dictFromList_eq (l : List (String × PyVal)) (h : noDupKeys l = true) :
    dictFromList l = l := by
  rw [dictFromList, foldl_dictSet l [] h (by intro p _; rfl)]
  simp

/-- The value parser ignores leading whitespace. -/
theorem parseVal_wsInvariant (f : Nat) (ws X : List Char) (h : ws.all isWsC = true) :
    parseVal f (ws ++ X) = parseVal f X := by
  match f with
  | 0 => rfl
  | f + 1 => simp only [parseVal, skipWs_wsAppend ws X h]

/-- The first character of a rendered value is not a blank, a closing
bracket, or a closing brace. -/
theorem dumpsVal_head (iws kws : List Char) (v : PyVal) :
    ∃ c cs, dumpsVal iws kws v = c :: cs ∧ isWsC c = false ∧ c ≠ ']' ∧ c ≠ '\x7d' := by
  match v with
  | .null => exact ⟨'n', _, rfl, by decide, by decide, by decide⟩
  | .bool true => exact ⟨'t', _, rfl, by decide, by decide, by decide⟩
  | .bool false => exact ⟨'f', _, rfl, by decide, by decide, by decide⟩
  | .str s => exact ⟨'"', _, rfl, by decide, by decide, by decide⟩
  | .arr [] => exact ⟨'[', _, rfl, by decide, by decide, by decide⟩
  | .arr (v :: l) => exact ⟨'[', _, rfl, by decide, by decide, by decide⟩
  | .obj [] => exact ⟨'\x7b', _, rfl, by decide, by decide, by decide⟩
  | .obj ((k, v) :: l) => exact ⟨'\x7b', _, rfl, by decide, by decide, by decide⟩
  | .int n =>
      obtain ⟨c, cs, hds, hd⟩ := intDumps_head n
      refine ⟨c, cs, hds, ?_, ?_, ?_⟩
      · rcases hd with h | h
        · exact isWsC_false_of_digit h
        · subst h; decide
      · rcases hd with h | h
        · have := isDigitC_iff.mp h
          exact charNeOfToNat (by simp only [show (']' : Char).toNat = 93 from rfl]; omega)
        · subst h; decide
      · rcases hd with h | h
        · have := isDigitC_iff.mp h
          exact charNeOfToNat (by simp only [show ('\x7d' : Char).toNat = 125 from rfl]; omega)
        · subst h; decide

/-- A rendered array tail never starts with a digit. -/
theorem firstIsDigit_dumpsArrTail (iws kws : List Char) (l : List PyVal) (rest : List Char) :
    firstIsDigit (dumpsArrTail iws kws l ++ rest) = false := by
  match l with
  | [] => rfl
  | v :: l' => rfl

/-- A rendered object tail never starts with a digit. -/
theorem firstIsDigit_dumpsObjTail (iws kws : List Char) (el : List (String × PyVal))
    (rest : List Char) :
    firstIsDigit (dumpsObjTail iws kws el ++ rest) = false := by
  match el with
  | [] => rfl
  | (k, v) :: el' => rfl

/-- The core round trip: with enough fuel, parsing the rendering of a
well-formed value (after any blank prefix, before any non-digit
remainder) returns the value and the remainder, and likewise for
rendered array and object tails. -/
theorem parse_dumps (iws kws : List Char) (hiws : iws.all isWsC = true)
    (hkws : kws.all isWsC = true) :
    ∀ f : Nat,
      (∀ (ws : List Char) (v : PyVal) (rest : List Char), ws.all isWsC = true →
        jsizeVal v ≤ f → PyVal.wfKeys v = true → firstIsDigit rest = false →
        parseVal f (ws ++ (dumpsVal iws kws v ++ rest)) = some (v, rest)) ∧
      (∀ (l : List PyVal) (rest : List Char), jsizeArr l ≤ f → wfKeysList l = true →
        parseArrTail f (dumpsArrTail iws kws l ++ rest) = some (l, rest)) ∧
      (∀ (el : List (String × PyVal)) (rest : List Char), jsizeObj el ≤ f →
        wfKeysObj el = true →
        parseObjTail f (dumpsObjTail iws kws el ++ rest) = some (el, rest)) := by
  intro f
  induction f with
  | zero =>
      refine ⟨?_, ?_, ?_⟩
      · intro ws v rest _ hsz _ _
        have := jsizeVal_pos v
        omega
      · intro l rest hsz _
        have := jsizeArr_pos l
        omega
      · intro el rest hsz _
        have := jsizeObj_pos el
        omega
  | succ f IH =>
      obtain ⟨IH1, IH2, IH3⟩ := IH
      refine ⟨?_, ?_, ?_⟩
      · intro ws v rest hws hsz hwf hrest
        rw [parseVal_wsInvariant _ _ _ hws]
        match v with
        | .null =>
            simp only [dumpsVal, List.cons_append, List.nil_append, parseVal,
              skipWs_cons 'n' _ (by decide)]
            simp
        | .bool true =>
            simp only [dumpsVal, List.cons_append, List.nil_append, parseVal,
              skipWs_cons 't' _ (by decide)]
            simp
        | .bool false =>
            simp only [dumpsVal, List.cons_append, List.nil_append, parseVal,
              skipWs_cons 'f' _ (by decide)]
            simp
        | .int n =>
            obtain ⟨c, cs', hds, hd⟩ := intDumps_head n
            rw [show dumpsVal iws kws (.int n) = intDumps n from rfl, hds, List.cons_append,
              parseVal_step_num f c _ hd, ← List.cons_append, ← hds,
              parseNumber_intDumps n rest (by
                match rest with
                | [] => trivial
                | c2 :: r2 => simpa [firstIsDigit] using hrest)]
        | .str s =>
            simp only [dumpsVal, strDumps, List.cons_append, parseVal,
              skipWs_cons '"' _ (by decide), Char.reduceEq, reduceIte]
            rw [parseStrBody_full s rest]
            rfl
        | .arr [] =>
            simp only [dumpsVal, List.cons_append, List.nil_append, parseVal,
              skipWs_cons '[' _ (by decide), skipWs_cons ']' _ (by decide)]
            simp [headIs]
        | .arr (v' :: l) =>
            have hsz1 : jsizeVal v' ≤ f := by
              simp only [jsizeVal] at hsz
              omega
            have hsz2 : jsizeArr l ≤ f := by
              simp only [jsizeVal] at hsz
              omega
            have hwf1 : v'.wfKeys = true ∧ wfKeysList l = true := by
              simp only [PyVal.wfKeys, wfKeysList, Bool.and_eq_true] at hwf
              exact hwf
            obtain ⟨c0, cs0, hc0, hnws0, hne0, _⟩ := dumpsVal_head iws kws v'
            simp only [dumpsVal, List.cons_append, List.append_assoc, parseVal,
              skipWs_cons '[' _ (by decide), Char.reduceEq, reduceIte]
            rw [hc0, List.cons_append, skipWs_cons c0 _ hnws0, ← List.cons_append, ← hc0]
            have hhd : headIs (dumpsVal iws kws v' ++ (dumpsArrTail iws kws l ++ rest)) ']' =
                false := by
              rw [hc0, List.cons_append]
              simp [headIs, hne0]
            rw [hhd]
            simp only [Bool.false_eq_true, if_false]
            have hstep := IH1 [] v' (dumpsArrTail iws kws l ++ rest) rfl hsz1 hwf1.1
              (firstIsDigit_dumpsArrTail iws kws l rest)
            rw [List.nil_append] at hstep
            rw [hstep]
            simp only [Char.reduceEq, reduceIte]
            rw [IH2 l rest hsz2 hwf1.2]
            rfl
        | .obj [] =>
            simp only [dumpsVal, List.cons_append, List.nil_append, parseVal,
              skipWs_cons '\x7b' _ (by decide), skipWs_cons '\x7d' _ (by decide)]
            simp [headIs]
        | .obj ((k, v') :: el) =>
            have hsz1 : jsizeVal v' ≤ f := by
              simp only [jsizeVal] at hsz
              omega
            have hsz2 : jsizeObj el ≤ f := by
              simp only [jsizeVal] at hsz
              omega
            have hnd : noDupKeys ((k, v') :: el) = true := by
              simp only [PyVal.wfKeys, Bool.and_eq_true] at hwf
              exact hwf.1
            have hwf1 : v'.wfKeys = true ∧ wfKeysObj el = true := by
              simp only [PyVal.wfKeys, wfKeysObj, Bool.and_eq_true] at hwf
              exact hwf.2
            simp only [dumpsVal, strDumps, List.cons_append, List.append_assoc, parseVal,
              skipWs_cons '\x7b' _ (by decide), Char.reduceEq, reduceIte,
              skipWs_cons '"' _ (by decide), headIs, List.tail_cons]
            rw [parseStrBody_full k]
            simp only [skipWs_cons ':' _ (by decide), headIs, List.tail_cons, Char.reduceEq, reduceIte]
            have hstep := IH1 kws v' (dumpsObjTail iws kws el ++ rest) hkws hsz1 hwf1.1
              (firstIsDigit_dumpsObjTail iws kws el rest)
            rw [hstep]
            simp only [Char.reduceEq, reduceIte]
            rw [IH3 el rest hsz2 hwf1.2]
            show some (PyVal.obj (dictFromList ((k, v') :: el)), rest) =
              some (.obj ((k, v') :: el), rest)
            rw [dictFromList_eq _ hnd]
      · intro l rest hsz hwf
        match l with
        | [] =>
            simp only [dumpsArrTail, List.cons_append, List.nil_append, parseArrTail,
              skipWs_cons ']' _ (by decide)]
            simp [headIs]
        | v' :: l' =>
            have hsz1 : jsizeVal v' ≤ f := by
              simp only [jsizeArr] at hsz
              omega
            have hsz2 : jsizeArr l' ≤ f := by
              simp only [jsizeArr] at hsz
              omega
            have hwf1 : v'.wfKeys = true ∧ wfKeysList l' = true := by
              simp only [wfKeysList, Bool.and_eq_true] at hwf
              exact hwf
            simp only [dumpsArrTail, List.cons_append, List.append_assoc, parseArrTail,
              skipWs_cons ',' _ (by decide), headIs, List.tail_cons, Char.reduceEq, reduceIte]
            have hstep := IH1 iws v' (dumpsArrTail iws kws l' ++ rest) hiws hsz1 hwf1.1
              (firstIsDigit_dumpsArrTail iws kws l' rest)
            rw [hstep]
            simp only [Char.reduceEq, reduceIte]
            rw [IH2 l' rest hsz2 hwf1.2]
            rfl
      · intro el rest hsz hwf
        match el with
        | [] =>
            simp only [dumpsObjTail, List.cons_append, List.nil_append, parseObjTail,
              skipWs_cons '\x7d' _ (by decide)]
            simp [headIs]
        | (k, v') :: el' =>
            have hsz1 : jsizeVal v' ≤ f := by
              simp only [jsizeObj] at hsz
              omega
            have hsz2 : jsizeObj el' ≤ f := by
              simp only [jsizeObj] at hsz
              omega
            have hwf1 : v'.wfKeys = true ∧ wfKeysObj el' = true := by
              simp only [wfKeysObj, Bool.and_eq_true] at hwf
              exact hwf
            simp only [dumpsObjTail, strDumps, List.cons_append, List.append_assoc, parseObjTail,
              skipWs_cons ',' _ (by decide), headIs, List.tail_cons, Char.reduceEq, reduceIte]
            rw [skipWs_wsAppend iws _ hiws, skipWs_cons '"' _ (by decide)]
            simp only [headIs, List.tail_cons, Char.reduceEq, reduceIte]
            rw [parseStrBody_full k]
            simp only [skipWs_cons ':' _ (by decide), headIs, List.tail_cons, Char.reduceEq, reduceIte]
            have hstep := IH1 kws v' (dumpsObjTail iws kws el' ++ rest) hkws hsz1 hwf1.1
              (firstIsDigit_dumpsObjTail iws kws el' rest)
            rw [hstep]
            simp only [Char.reduceEq, reduceIte]
            rw [IH3 el' rest hsz2 hwf1.2]
            rfl

mutual
/-- The fuel bound is dominated by the rendering's length. -/
theorem jsizeVal_le_length (iws kws : List Char) :
    ∀ (v : PyVal), jsizeVal v ≤ (dumpsVal iws kws v).length
  | .null => by simp [jsizeVal, dumpsVal]
  | .bool true => by simp [jsizeVal, dumpsVal]
  | .bool false => by simp [jsizeVal, dumpsVal]
  | .int n => by
      simp only [jsizeVal, dumpsVal]
      obtain ⟨c, cs, hds, _⟩ := intDumps_head n
      rw [hds]
      simp
  | .str s => by
      simp only [jsizeVal, dumpsVal, strDumps]
      simp
  | .arr [] => by simp [jsizeVal, dumpsVal]
  | .arr (v :: l) => by
      have h1 := jsizeVal_le_length iws kws v
      have h2 := jsizeArr_le_length iws kws l
      simp only [jsizeVal, dumpsVal, List.length_cons, List.length_append]
      omega
  | .obj [] => by simp [jsizeVal, dumpsVal]
  | .obj ((k, v) :: l) => by
      have h1 := jsizeVal_le_length iws kws v
      have h2 := jsizeObj_le_length iws kws l
      simp only [jsizeVal, dumpsVal, List.length_cons, List.length_append]
      omega

/-- The array-tail fuel bound is dominated by the rendering's
length. -/
theorem jsizeArr_le_length (iws kws : List Char) :
    ∀ (l : List PyVal), jsizeArr l ≤ (dumpsArrTail iws kws l).length
  | [] => by simp [jsizeArr, dumpsArrTail]
  | v :: l => by
      have h1 := jsizeVal_le_length iws kws v
      have h2 := jsizeArr_le_length iws kws l
      simp only [jsizeArr, dumpsArrTail, List.length_cons, List.length_append]
      omega

/-- The object-tail fuel bound is dominated by the rendering's
length. -/
theorem jsizeObj_le_length (iws kws : List Char) :
    ∀ (el : List (String × PyVal)), jsizeObj el ≤ (dumpsObjTail iws kws el).length
  | [] => by simp [jsizeObj, dumpsObjTail]
  | (k, v) :: l => by
      have h1 := jsizeVal_le_length iws kws v
      have h2 := jsizeObj_le_length iws kws l
      simp only [jsizeObj, dumpsObjTail, List.length_cons, List.length_append]
      omega
end

/-- json.loads inverts json.dumps on well-formed values, for any
whitespace-only separator suffixes. -/
theorem jsonLoads_dumpsVal (iws kws : List Char) (hiws : iws.all isWsC = true)
    (hkws : kws.all isWsC = true) (v : PyVal) (hwf : v.wfKeys = true) :
    jsonLoads (dumpsVal iws kws v) = some v := by
  have h := (parse_dumps iws kws hiws hkws ((dumpsVal iws kws v).length + 1)).1 [] v []
    rfl (le_trans (jsizeVal_le_length iws kws v) (by omega)) hwf rfl
  rw [List.nil_append, List.append_nil] at h
  simp only [jsonLoads, h]
  simp [skipWs]

/-- The url-safe base64 alphabet used by base64.urlsafe_b64encode. -/
def b64Alphabet : List Char :=
  ['A', 'B', 'C', 'D', 'E', 'F', 'G', 'H', 'I', 'J', 'K', 'L', 'M',
   'N', 'O', 'P', 'Q', 'R', 'S', 'T', 'U', 'V', 'W', 'X', 'Y', 'Z',
   'a', 'b', 'c', 'd', 'e', 'f', 'g', 'h', 'i', 'j', 'k', 'l', 'm',
   'n', 'o', 'p', 'q', 'r', 's', 't', 'u', 'v', 'w', 'x', 'y', 'z',
   '0', '1', '2', '3', '4', '5', '6', '7', '8', '9', '-', '_']

/-- Alphabet character of a sextet. -/
def b64Char (n : Nat) : Char := b64Alphabet.getD n '='

/-- Index scan for the sextet of an alphabet character. -/
def b64ValAux : List Char → Char → Nat → Option Nat
  | [], _, _ => none
  | a :: rest, c, i => if a = c then some i else b64ValAux rest c (i + 1)

/-- Sextet of an alphabet character. -/
def b64Val (c : Char) : Option Nat := b64ValAux b64Alphabet c 0

/-- Core base64 encoding (three bytes to four characters, shorter final
group, no padding). -/
def b64EncodeCore : List Nat → List Char
  | [] => []
  | [b1] => [b64Char (b1 / 4), b64Char (b1 % 4 * 16)]
  | [b1, b2] => [b64Char (b1 / 4), b64Char (b1 % 4 * 16 + b2 / 16), b64Char (b2 % 16 * 4)]
  | b1 :: b2 :: b3 :: rest =>
      b64Char (b1 / 4) :: b64Char (b1 % 4 * 16 + b2 / 16) ::
        b64Char (b2 % 16 * 4 + b3 / 64) :: b64Char (b3 % 64) :: b64EncodeCore rest

/-- base64.urlsafe_b64encode: core groups plus '=' padding to a
multiple of four characters. -/
def b64Encode (bs : List Nat) : List Char :=
  b64EncodeCore bs ++ List.replicate ((3 - bs.length % 3) % 3) '='

/-- Core base64 decoding of unpadded groups. -/
def b64DecodeCore : List Char → Option (List Nat)
  | [] => some []
  | [c1, c2] =>
      (match b64Val c1, b64Val c2 with
       | some s1, some s2 => some [s1 * 4 + s2 / 16]
       | _, _ => none)
  | [c1, c2, c3] =>
      (match b64Val c1, b64Val c2, b64Val c3 with
       | some s1, some s2, some s3 => some [s1 * 4 + s2 / 16, s2 % 16 * 16 + s3 / 4]
       | _, _, _ => none)
  | c1 :: c2 :: c3 :: c4 :: rest =>
      (match b64Val c1, b64Val c2, b64Val c3, b64Val c4, b64DecodeCore rest with
       | some s1, some s2, some s3, some s4, some bs =>
           some ((s1 * 4 + s2 / 16) :: (s2 % 16 * 16 + s3 / 4) :: (s3 % 4 * 64 + s4) :: bs)
       | _, _, _, _, _ => none)
  | [_] => none

/-- Removal of trailing padding characters. -/
def dropTrailingEq (cs : List Char) : List Char :=
  (cs.reverse.dropWhile (fun c => c = '=')).reverse

/-- base64.urlsafe_b64decode as the codec relies on it: ignore trailing
padding (Python's lenient non-strict mode, which tolerates surplus '='),
then decode the groups. -/
def b64Decode (cs : List Char) : Option (List Nat) :=
  b64DecodeCore (dropTrailingEq cs)

/-- Sextets round-trip through the alphabet. -/
theorem b64Val_b64Char (n : Nat) (h : n < 64) : b64Val (b64Char n) = some n := by
  have hfin : ∀ m : Fin 64, b64Val (b64Char m.val) = some m.val := by decide
  exact hfin ⟨n, h⟩

/-- Alphabet characters are not padding. -/
theorem b64Char_ne_eq (n : Nat) (h : n < 64) : b64Char n ≠ '=' := by
  have hfin : ∀ m : Fin 64, b64Char m.val ≠ '=' := by decide
  exact hfin ⟨n, h⟩

/-- Decoding inverts core encoding on byte lists. -/
theorem b64DecodeCore_encodeCore : ∀ (bs : List Nat), (∀ b ∈ bs, b < 256) →
    b64DecodeCore (b64EncodeCore bs) = some bs
  | [] => fun _ => rfl
  | [b1] => by
      intro h
      have hb1 : b1 < 256 := h b1 (by simp)
      simp only [b64EncodeCore, b64DecodeCore,
        b64Val_b64Char (b1 / 4) (by omega), b64Val_b64Char (b1 % 4 * 16) (by omega)]
      have : b1 / 4 * 4 + b1 % 4 * 16 / 16 = b1 := by omega
      rw [this]
  | [b1, b2] => by
      intro h
      have hb1 : b1 < 256 := h b1 (by simp)
      have hb2 : b2 < 256 := h b2 (by simp)
      simp only [b64EncodeCore, b64DecodeCore,
        b64Val_b64Char (b1 / 4) (by omega),
        b64Val_b64Char (b1 % 4 * 16 + b2 / 16) (by omega),
        b64Val_b64Char (b2 % 16 * 4) (by omega)]
      have e1 : b1 / 4 * 4 + (b1 % 4 * 16 + b2 / 16) / 16 = b1 := by omega
      have e2 : (b1 % 4 * 16 + b2 / 16) % 16 * 16 + b2 % 16 * 4 / 4 = b2 := by omega
      rw [e1, e2]
  | b1 :: b2 :: b3 :: rest => by
      intro h
      have hb1 : b1 < 256 := h b1 (by simp)
      have hb2 : b2 < 256 := h b2 (by simp)
      have hb3 : b3 < 256 := h b3 (by simp)
      have hrest : ∀ b ∈ rest, b < 256 := fun b hb => h b (by simp [hb])
      have hrec := b64DecodeCore_encodeCore rest hrest
      match rest with
      | [] =>
          simp only [b64EncodeCore, b64DecodeCore,
            b64Val_b64Char (b1 / 4) (by omega),
            b64Val_b64Char (b1 % 4 * 16 + b2 / 16) (by omega),
            b64Val_b64Char (b2 % 16 * 4 + b3 / 64) (by omega),
            b64Val_b64Char (b3 % 64) (by omega)]
          have e1 : b1 / 4 * 4 + (b1 % 4 * 16 + b2 / 16) / 16 = b1 := by omega
          have e2 : (b1 % 4 * 16 + b2 / 16) % 16 * 16 + (b2 % 16 * 4 + b3 / 64) / 4 = b2 := by
            omega
          have e3 : (b2 % 16 * 4 + b3 / 64) % 4 * 64 + b3 % 64 = b3 := by omega
          rw [e1, e2, e3]
      | r1 :: rest' =>
          simp only [b64EncodeCore, b64DecodeCore, hrec,
            b64Val_b64Char (b1 / 4) (by omega),
            b64Val_b64Char (b1 % 4 * 16 + b2 / 16) (by omega),
            b64Val_b64Char (b2 % 16 * 4 + b3 / 64) (by omega),
            b64Val_b64Char (b3 % 64) (by omega)]
          have e1 : b1 / 4 * 4 + (b1 % 4 * 16 + b2 / 16) / 16 = b1 := by omega
          have e2 : (b1 % 4 * 16 + b2 / 16) % 16 * 16 + (b2 % 16 * 4 + b3 / 64) / 4 = b2 := by
            omega
          have e3 : (b2 % 16 * 4 + b3 / 64) % 4 * 64 + b3 % 64 = b3 := by omega
          rw [e1, e2, e3]

/-- Core-encoded characters are never padding. -/
theorem b64EncodeCore_ne_eq : ∀ (bs : List Nat), (∀ b ∈ bs, b < 256) →
    ∀ c ∈ b64EncodeCore bs, c ≠ '='
  | [] => by intro _ c hc; simp [b64EncodeCore] at hc
  | [b1] => by
      intro h c hc
      have hb1 : b1 < 256 := h b1 (by simp)
      simp only [b64EncodeCore, List.mem_cons, List.mem_singleton, List.not_mem_nil] at hc
      rcases hc with h1 | h1 | h1
      · exact h1 ▸ b64Char_ne_eq _ (by omega)
      · exact h1 ▸ b64Char_ne_eq _ (by omega)
      · simp at h1
  | [b1, b2] => by
      intro h c hc
      have hb1 : b1 < 256 := h b1 (by simp)
      have hb2 : b2 < 256 := h b2 (by simp)
      simp only [b64EncodeCore, List.mem_cons, List.not_mem_nil] at hc
      rcases hc with h1 | h1 | h1 | h1
      · exact h1 ▸ b64Char_ne_eq _ (by omega)
      · exact h1 ▸ b64Char_ne_eq _ (by omega)
      · exact h1 ▸ b64Char_ne_eq _ (by omega)
      · simp at h1
  | b1 :: b2 :: b3 :: rest => by
      intro h c hc
      have hb1 : b1 < 256 := h b1 (by simp)
      have hb2 : b2 < 256 := h b2 (by simp)
      have hb3 : b3 < 256 := h b3 (by simp)
      have hrest : ∀ b ∈ rest, b < 256 := fun b hb => h b (by simp [hb])
      simp only [b64EncodeCore, List.mem_cons] at hc
      rcases hc with h1 | h1 | h1 | h1 | h1
      · exact h1 ▸ b64Char_ne_eq _ (by omega)
      · exact h1 ▸ b64Char_ne_eq _ (by omega)
      · exact h1 ▸ b64Char_ne_eq _ (by omega)
      · exact h1 ▸ b64Char_ne_eq _ (by omega)
      · exact b64EncodeCore_ne_eq rest hrest c h1

/-- Dropping trailing padding after a padding-free core recovers the
core. -/
theorem dropTrailingEq_core (core : List Char) (k : Nat)
    (h : ∀ c ∈ core, c ≠ '=') :
    dropTrailingEq (core ++ List.replicate k '=') = core := by
  rw [dropTrailingEq, List.reverse_append, List.reverse_replicate]
  have hrep : List.dropWhile (fun c => c = '=') (List.replicate k '=' ++ core.reverse) =
      List.dropWhile (fun c => c = '=') core.reverse := by
    induction k with
    | zero => simp
    | succ k ih => simpa [List.replicate_succ, List.dropWhile] using ih
  rw [hrep]
  match hc : core.reverse with
  | [] =>
      have : core = [] := by simpa using congrArg List.reverse hc
      simp [this]
  | c :: cs =>
      have hcm : c ∈ core := by
        have : c ∈ core.reverse := by rw [hc]; simp
        simpa using this
      rw [List.dropWhile_cons_of_neg (by simpa using h c hcm)]
      rw [← hc]
      simp

/-- Stripping the padding characters from a padded encoding leaves the
core. -/
theorem filter_b64Encode (bs : List Nat) (h : ∀ b ∈ bs, b < 256) :
    (b64Encode bs).filter (fun c => c ≠ '=') = b64EncodeCore bs := by
  rw [b64Encode, List.filter_append]
  have h1 : (b64EncodeCore bs).filter (fun c => c ≠ '=') = b64EncodeCore bs := by
    apply List.filter_eq_self.mpr
    intro c hc
    simpa using b64EncodeCore_ne_eq bs h c hc
  have h2 : (List.replicate ((3 - bs.length % 3) % 3) '=').filter (fun c => c ≠ '=') = [] := by
    apply List.filter_eq_nil_iff.mpr
    intro c hc
    have : c = '=' := List.eq_of_mem_replicate hc
    simp [this]
  rw [h1, h2, List.append_nil]

/-- Decoding a padded core with any amount of trailing padding recovers
the bytes. -/
theorem b64Decode_core_padded (bs : List Nat) (k : Nat) (h : ∀ b ∈ bs, b < 256) :
    b64Decode (b64EncodeCore bs ++ List.replicate k '=') = some bs := by
  rw [b64Decode, dropTrailingEq_core _ _ (b64EncodeCore_ne_eq bs h),
    b64DecodeCore_encodeCore bs h]

/-- UTF-8 encoding of one character (str.encode("utf-8")). -/
def utf8EncodeChar (c : Char) : List Nat :=
  let n := c.toNat
  if n < 0x80 then [n]
  else if n < 0x800 then [0xc0 + n / 0x40, 0x80 + n % 0x40]
  else if n < 0x10000 then [0xe0 + n / 0x1000, 0x80 + n / 0x40 % 0x40, 0x80 + n % 0x40]
  else [0xf0 + n / 0x40000, 0x80 + n / 0x1000 % 0x40, 0x80 + n / 0x40 % 0x40, 0x80 + n % 0x40]

/-- UTF-8 encoding of a character sequence. -/
def utf8Encode : List Char → List Nat
  | [] => []
  | c :: rest => utf8EncodeChar c ++ utf8Encode rest

/-- Decoder for a single UTF-8 scalar: given the lead byte and the
following bytes, the decoded character and the remaining bytes.
Malformed sequences and invalid code points fail, as the strict codec
raises. -/
def utf8DecodeStep (b : Nat) (rest : List Nat) : Option (Char × List Nat) :=
  if b < 0x80 then (mkChar b).map (fun c => (c, rest))
  else if b < 0xc0 then none
  else if b < 0xe0 then
    match rest with
    | b2 :: rest2 =>
        if 0x80 ≤ b2 ∧ b2 < 0xc0 then
          (mkChar ((b - 0xc0) * 0x40 + (b2 - 0x80))).map (fun c => (c, rest2))
        else none
    | [] => none
  else if b < 0xf0 then
    match rest with
    | b2 :: b3 :: rest2 =>
        if (0x80 ≤ b2 ∧ b2 < 0xc0) ∧ (0x80 ≤ b3 ∧ b3 < 0xc0) then
          (mkChar ((b - 0xe0) * 0x1000 + (b2 - 0x80) * 0x40 + (b3 - 0x80))).map
            (fun c => (c, rest2))
        else none
    | _ => none
  else if b < 0xf8 then
    match rest with
    | b2 :: b3 :: b4 :: rest2 =>
        if (0x80 ≤ b2 ∧ b2 < 0xc0) ∧ (0x80 ≤ b3 ∧ b3 < 0xc0) ∧ (0x80 ≤ b4 ∧ b4 < 0xc0) then
          (mkChar ((b - 0xf0) * 0x40000 + (b2 - 0x80) * 0x1000 +
              (b3 - 0x80) * 0x40 + (b4 - 0x80))).map (fun c => (c, rest2))
        else none
    | _ => none
  else none

/-- Fueled UTF-8 decoding loop; any fuel above the character count
suffices. -/
def utf8DecodeF : Nat → List Nat → Option (List Char)
  | 0, _ => none
  | _ + 1, [] => some []
  | f + 1, b :: rest =>
      match utf8DecodeStep b rest with
      | some (c, rest2) => (utf8DecodeF f rest2).map (fun cs => c :: cs)
      | none => none

/-- bytes.decode("utf-8"). -/
def utf8Decode (bs : List Nat) : Option (List Char) :=
  utf8DecodeF (bs.length + 1) bs

/-- One ASCII byte decodes to its character. -/
theorem utf8DecodeStep_ascii (b : Nat) (rest : List Nat) (hb : b < 0x80) :
    utf8DecodeStep b rest = (mkChar b).map (fun c => (c, rest)) := by
  simp only [utf8DecodeStep, hb, if_true]

/-- The fueled decoding loop inverts encoding on ASCII text. -/
theorem utf8DecodeF_encode_ascii : ∀ (cs : List Char) (f : Nat), cs.length < f →
    (∀ c ∈ cs, c.toNat < 0x80) → utf8DecodeF f (utf8Encode cs) = some cs := by
  intro cs
  induction cs with
  | nil =>
      intro f hf _
      match f, hf with
      | f' + 1, _ => rfl
  | cons c rest ih =>
      intro f hf h
      have hc : c.toNat < 0x80 := h c (by simp)
      have hrest : ∀ c' ∈ rest, c'.toNat < 0x80 := fun c' hc' => h c' (by simp [hc'])
      match f, hf with
      | f' + 1, hf =>
          have henc : utf8Encode (c :: rest) = c.toNat :: utf8Encode rest := by
            simp [utf8Encode, utf8EncodeChar, hc]
          rw [henc]
          have hih := ih f' (by simpa using Nat.lt_of_succ_lt_succ hf) hrest
          simp only [utf8DecodeF, utf8DecodeStep_ascii _ _ hc, mkChar_toNat, Option.map_some, hih]
          simp [hih]

/-- UTF-8 decoding inverts encoding on ASCII text (the only text the
codecs under study produce, since json.dumps escapes to ASCII). -/
theorem utf8Decode_encode_ascii (cs : List Char) (h : ∀ c ∈ cs, c.toNat < 0x80) :
    utf8Decode (utf8Encode cs) = some cs := by
  have hlen : (utf8Encode cs).length = cs.length := by
    induction cs with
    | nil => rfl
    | cons c rest ih =>
        have hc : c.toNat < 0x80 := h c (by simp)
        have : utf8Encode (c :: rest) = c.toNat :: utf8Encode rest := by
          simp [utf8Encode, utf8EncodeChar, hc]
        rw [this]
        simpa using ih (fun c' hc' => h c' (by simp [hc']))
  rw [utf8Decode, hlen]
  exact utf8DecodeF_encode_ascii cs (cs.length + 1) (by omega) h

/-- Bytes of ASCII text are below 256. -/
theorem utf8Encode_ascii_bytes (cs : List Char) (h : ∀ c ∈ cs, c.toNat < 0x80) :
    ∀ b ∈ utf8Encode cs, b < 256 := by
  induction cs with
  | nil => intro b hb; simp [utf8Encode] at hb
  | cons c rest ih =>
      intro b hb
      have hc : c.toNat < 0x80 := h c (by simp)
      simp only [utf8Encode, utf8EncodeChar, hc, if_true, List.cons_append, List.nil_append,
        List.mem_cons] at hb
      rcases hb with h1 | h1
      · omega
      · exact ih (fun c' hc' => h c' (by simp [hc'])) b h1

/-- Hex digit characters are ASCII. -/
theorem hexCh_ascii (d : Nat) (h : d < 16) : (hexCh d).toNat < 0x80 := by
  by_cases h10 : d < 10
  · have hv : (48 + d).isValidChar := Or.inl (by omega)
    simp only [hexCh, h10, if_true, toNatOfNatValid _ hv]
    omega
  · have hv : (87 + d).isValidChar := Or.inl (by omega)
    simp only [hexCh, h10, if_false, toNatOfNatValid _ hv]
    omega

/-- The four-digit hex rendering is ASCII. -/
theorem hex4_ascii (n : Nat) : ∀ c ∈ hex4 n, c.toNat < 0x80 := by
  intro c hc
  simp only [hex4, List.mem_cons, List.not_mem_nil, or_false] at hc
  rcases hc with h | h | h | h <;>
    exact h ▸ hexCh_ascii _ (by omega)

/-- Escapes are ASCII (this is what ensure_ascii means). -/
theorem escapeChar_ascii (c : Char) : ∀ c' ∈ escapeChar c, c'.toNat < 0x80 := by
  intro c' hc'
  rw [escapeChar] at hc'
  split_ifs at hc' with h1 h2 h3 h4 h5 h6 h7 h8 h9
  · rcases (by simpa using hc' : c' = '\\' ∨ c' = '"') with h | h <;> subst h <;> decide
  · rcases (by simpa using hc' : c' = '\\' ∨ c' = '\\') with h | h <;> subst h <;> decide
  · rcases (by simpa using hc' : c' = '\\' ∨ c' = 'n') with h | h <;> subst h <;> decide
  · rcases (by simpa using hc' : c' = '\\' ∨ c' = 'r') with h | h <;> subst h <;> decide
  · rcases (by simpa using hc' : c' = '\\' ∨ c' = 't') with h | h <;> subst h <;> decide
  · rcases (by simpa using hc' : c' = '\\' ∨ c' = 'b') with h | h <;> subst h <;> decide
  · rcases (by simpa using hc' : c' = '\\' ∨ c' = 'f') with h | h <;> subst h <;> decide
  · have : c' = c := by simpa using hc'
    subst this
    simp only [Bool.and_eq_true, decide_eq_true_eq] at h8
    omega
  · simp only [List.mem_cons] at hc'
    rcases hc' with h | h | h
    · subst h; decide
    · subst h; decide
    · exact hex4_ascii _ _ h
  · simp only [List.cons_append, List.mem_cons, List.mem_append] at hc'
    rcases hc' with hc' | hc' | hc' | hc' | hc' | hc'
    · subst hc'; decide
    · subst hc'; decide
    · exact hex4_ascii _ _ hc'
    · subst hc'; decide
    · subst hc'; decide
    · exact hex4_ascii _ _ hc'

/-- Escaped string bodies are ASCII. -/
theorem escapeStr_ascii (cs : List Char) : ∀ c' ∈ escapeStr cs, c'.toNat < 0x80 := by
  induction cs with
  | nil =>
      intro c' hc'
      simp only [escapeStr, List.mem_singleton] at hc'
      subst hc'
      decide
  | cons c rest ih =>
      intro c' hc'
      simp only [escapeStr, List.mem_append] at hc'
      rcases hc' with h | h
      · exact escapeChar_ascii c c' h
      · exact ih c' h

/-- Rendered ints are ASCII. -/
theorem intDumps_ascii (n : Int) : ∀ c ∈ intDumps n, c.toNat < 0x80 := by
  intro c hc
  have hdig : ∀ c' ∈ natDumps n.natAbs, c'.toNat < 0x80 := by
    intro c' hc'
    have := natDumps_all_digits n.natAbs
    rw [List.all_eq_true] at this
    have := isDigitC_iff.mp (this c' hc')
    omega
  rw [intDumps] at hc
  split_ifs at hc with h
  · simp only [List.mem_cons] at hc
    rcases hc with h1 | h1
    · subst h1; decide
    · exact hdig c h1
  · exact hdig c hc

/-- Rendered values, array tails and object tails are ASCII when the
separators are (strong induction on size). -/
theorem dumps_ascii_all (iws kws : List Char) (hiws : ∀ c ∈ iws, c.toNat < 0x80)
    (hkws : ∀ c ∈ kws, c.toNat < 0x80) : ∀ (n : Nat),
    (∀ v : PyVal, sizeOf v ≤ n → ∀ c ∈ dumpsVal iws kws v, c.toNat < 0x80) ∧
    (∀ l : List PyVal, sizeOf l ≤ n → ∀ c ∈ dumpsArrTail iws kws l, c.toNat < 0x80) ∧
    (∀ el : List (String × PyVal), sizeOf el ≤ n →
      ∀ c ∈ dumpsObjTail iws kws el, c.toNat < 0x80) := by
  intro n
  induction n with
  | zero =>
      refine ⟨fun v hv => absurd hv (by cases v <;> simp),
        fun l hl => absurd hl (by cases l <;> simp),
        fun el hel => absurd hel (by cases el <;> simp)⟩
  | succ n ih =>
      obtain ⟨ihv, ihl, ihe⟩ := ih
      refine ⟨?_, ?_, ?_⟩
      · intro v hv c hc
        cases v with
        | null =>
            simp only [dumpsVal, List.mem_cons, List.not_mem_nil, or_false] at hc
            rcases hc with hc | hc | hc | hc <;> (subst hc; decide)
        | bool b =>
            cases b
            · simp only [dumpsVal, List.mem_cons, List.not_mem_nil, or_false] at hc
              rcases hc with hc | hc | hc | hc | hc <;> (subst hc; decide)
            · simp only [dumpsVal, List.mem_cons, List.not_mem_nil, or_false] at hc
              rcases hc with hc | hc | hc | hc <;> (subst hc; decide)
        | int m =>
            simp only [dumpsVal] at hc
            exact intDumps_ascii m c hc
        | str s =>
            simp only [dumpsVal, strDumps, List.mem_cons] at hc
            rcases hc with hc | hc
            · subst hc; decide
            · exact escapeStr_ascii s.data c hc
        | arr l =>
            cases l with
            | nil =>
                simp only [dumpsVal, List.mem_cons, List.not_mem_nil, or_false] at hc
                rcases hc with hc | hc <;> (subst hc; decide)
            | cons v t =>
                have h1 : sizeOf v ≤ n := by
                  simp only [PyVal.arr.sizeOf_spec, List.cons.sizeOf_spec] at hv
                  omega
                have h2 : sizeOf t ≤ n := by
                  simp only [PyVal.arr.sizeOf_spec, List.cons.sizeOf_spec] at hv
                  omega
                simp only [dumpsVal, List.cons_append, List.mem_cons, List.mem_append,
                  or_assoc] at hc
                rcases hc with hc | hc | hc
                · subst hc; decide
                · exact ihv v h1 c hc
                · exact ihl t h2 c hc
        | obj el =>
            cases el with
            | nil =>
                simp only [dumpsVal, List.mem_cons, List.not_mem_nil, or_false] at hc
                rcases hc with hc | hc <;> (subst hc; decide)
            | cons p t =>
                obtain ⟨k, v⟩ := p
                have h1 : sizeOf v ≤ n := by
                  simp only [PyVal.obj.sizeOf_spec, List.cons.sizeOf_spec,
                    Prod.mk.sizeOf_spec] at hv
                  omega
                have h2 : sizeOf t ≤ n := by
                  simp only [PyVal.obj.sizeOf_spec, List.cons.sizeOf_spec,
                    Prod.mk.sizeOf_spec] at hv
                  omega
                simp only [dumpsVal, strDumps, List.cons_append, List.mem_cons,
                  List.mem_append, or_assoc] at hc
                rcases hc with hc | hc | hc | hc | hc | hc | hc
                · subst hc; decide
                · subst hc; decide
                · exact escapeStr_ascii k.data c hc
                · subst hc; decide
                · exact hkws c hc
                · exact ihv v h1 c hc
                · exact ihe t h2 c hc
      · intro l hl c hc
        cases l with
        | nil =>
            simp only [dumpsArrTail, List.mem_cons, List.not_mem_nil, or_false] at hc
            subst hc
            decide
        | cons v t =>
            have h1 : sizeOf v ≤ n := by
              simp only [List.cons.sizeOf_spec] at hl
              omega
            have h2 : sizeOf t ≤ n := by
              simp only [List.cons.sizeOf_spec] at hl
              omega
            simp only [dumpsArrTail, List.cons_append, List.mem_cons, List.mem_append,
              or_assoc] at hc
            rcases hc with hc | hc | hc | hc
            · subst hc; decide
            · exact hiws c hc
            · exact ihv v h1 c hc
            · exact ihl t h2 c hc
      · intro el hel c hc
        cases el with
        | nil =>
            simp only [dumpsObjTail, List.mem_cons, List.not_mem_nil, or_false] at hc
            subst hc
            decide
        | cons p t =>
            obtain ⟨k, v⟩ := p
            have h1 : sizeOf v ≤ n := by
              simp only [List.cons.sizeOf_spec, Prod.mk.sizeOf_spec] at hel
              omega
            have h2 : sizeOf t ≤ n := by
              simp only [List.cons.sizeOf_spec, Prod.mk.sizeOf_spec] at hel
              omega
            simp only [dumpsObjTail, strDumps, List.cons_append, List.mem_cons,
              List.mem_append, or_assoc] at hc
            rcases hc with hc | hc | hc | hc | hc | hc | hc | hc
            · subst hc; decide
            · exact hiws c hc
            · subst hc; decide
            · exact escapeStr_ascii k.data c hc
            · subst hc; decide
            · exact hkws c hc
            · exact ihv v h1 c hc
            · exact ihe t h2 c hc

/-- Rendered values are ASCII when the separators are. -/
theorem dumpsVal_ascii (iws kws : List Char) (hiws : ∀ c ∈ iws, c.toNat < 0x80)
    (hkws : ∀ c ∈ kws, c.toNat < 0x80) (v : PyVal) :
    ∀ c ∈ dumpsVal iws kws v, c.toNat < 0x80 :=
  (dumps_ascii_all iws kws hiws hkws (sizeOf v)).1 v (le_refl _)

/-- Rendered array tails are ASCII when the separators are. -/
theorem dumpsArrTail_ascii (iws kws : List Char) (hiws : ∀ c ∈ iws, c.toNat < 0x80)
    (hkws : ∀ c ∈ kws, c.toNat < 0x80) (l : List PyVal) :
    ∀ c ∈ dumpsArrTail iws kws l, c.toNat < 0x80 :=
  (dumps_ascii_all iws kws hiws hkws (sizeOf l)).2.1 l (le_refl _)

/-- Rendered object tails are ASCII when the separators are. -/
theorem dumpsObjTail_ascii (iws kws : List Char) (hiws : ∀ c ∈ iws, c.toNat < 0x80)
    (hkws : ∀ c ∈ kws, c.toNat < 0x80) (el : List (String × PyVal)) :
    ∀ c ∈ dumpsObjTail iws kws el, c.toNat < 0x80 :=
  (dumps_ascii_all iws kws hiws hkws (sizeOf el)).2.2 el (le_refl _)

/-- BaseTocoObject._encode_nexttoken: json.dumps with Python's default
separators, utf-8 encode, url-safe base64, then strip every '=' (the
source's replace("=", "")). -/
def encodeNexttoken (key : PyVal) : String :=
  String.mk ((b64Encode (utf8Encode (dumpsVal [' '] [' '] key))).filter (fun c => c ≠ '='))

/-- BaseTocoObject._decode_nexttoken: re-pad with (-len) mod 16 '='
characters (the source's "=" * ((-1*len(key))%16)), base64-decode,
utf-8 decode, json.loads. -/
def decodeNexttoken (key : String) : Option PyVal :=
  let padded := key.data ++ List.replicate ((16 - key.data.length % 16) % 16) '='
  (b64Decode padded).bind (fun bs => (utf8Decode bs).bind (fun cs => jsonLoads cs))

/-- C3: decoding the encoded pagination token returns the key map
exactly, for every well-formed (duplicate-free) key map, whatever
length class its padding-stripped encoding falls in. -/
theorem C3_nexttoken_roundtrip (k : PyVal) (hwf : PyVal.wfKeys k = true) :
    decodeNexttoken (encodeNexttoken k) = some k := by
  have hascii : ∀ c ∈ dumpsVal [' '] [' '] k, c.toNat < 0x80 :=
    dumpsVal_ascii [' '] [' '] (by intro c hc; fin_cases hc <;> decide)
      (by intro c hc; fin_cases hc <;> decide) k
  have hbytes : ∀ b ∈ utf8Encode (dumpsVal [' '] [' '] k), b < 256 :=
    utf8Encode_ascii_bytes _ hascii
  rw [decodeNexttoken]
  rw [show (encodeNexttoken k).data =
    (b64Encode (utf8Encode (dumpsVal [' '] [' '] k))).filter (fun c => c ≠ '=') from rfl]
  rw [filter_b64Encode _ hbytes]
  rw [b64Decode_core_padded _ _ hbytes]
  simp only [Option.some_bind]
  rw [utf8Decode_encode_ascii _ hascii]
  simp only [Option.some_bind]
  exact jsonLoads_dumpsVal [' '] [' '] (by decide) (by decide) k hwf

/-- Witness for C3 at a concrete key map whose stripped encoding has
length 14, not a multiple of four. -/
theorem C3_nexttoken_roundtrip_witness :
    PyVal.wfKeys (.obj [("k", .str "v")]) = true ∧
      decodeNexttoken (encodeNexttoken (.obj [("k", .str "v")])) =
        some (.obj [("k", .str "v")]) :=
  ⟨by decide, C3_nexttoken_roundtrip (.obj [("k", .str "v")]) (by decide)⟩

/-- Insertion into a key-sorted entry list. -/
def insertKeyed (p : String × PyVal) : List (String × PyVal) → List (String × PyVal)
  | [] => [p]
  | q :: rest => if p.1 ≤ q.1 then p :: q :: rest else q :: insertKeyed p rest

/-- Key-sorting of an entry list (modelling sorted() on dict keys). -/
def insertionSortKeys : List (String × PyVal) → List (String × PyVal)
  | [] => []
  | p :: rest => insertKeyed p (insertionSortKeys rest)

mutual
/-- The effect of json.dumps with sort_keys=True, modelled as sorting
every object level by key (code-point order, as Python compares
strings) before the plain rendering. -/
def sortKeysRec : PyVal → PyVal
  | .null => .null
  | .bool b => .bool b
  | .int n => .int n
  | .str s => .str s
  | .arr l => .arr (sortKeysList l)
  | .obj l => .obj (insertionSortKeys (sortKeysObjVals l))

/-- List version of `sortKeysRec`. -/
def sortKeysList : List PyVal → List PyVal
  | [] => []
  | v :: rest => sortKeysRec v :: sortKeysList rest

/-- Entry version of `sortKeysRec` (values sorted recursively, key
order untouched at this stage). -/
def sortKeysObjVals : List (String × PyVal) → List (String × PyVal)
  | [] => []
  | (k, v) :: rest => (k, sortKeysRec v) :: sortKeysObjVals rest
end

/-- str.startswith. -/
def pyStartsWith (s pre : String) : Bool := List.isPrefixOf pre.data s.data

/-- TocoObject._foreign_key applied to a relation map: the fixed prefix
plus the compact, key-sorted JSON rendering of the map. -/
def foreignKeyOfRelationMap (m : List (String × PyVal)) : String :=
  String.mk (FKEY_PREFIX.data ++ dumpsVal [] [] (sortKeysRec (.obj m)))

/-- BaseTocoObject._get_class_relation_map: the per-class contribution
to a relation map. -/
def getClassRelationMap (className : String) (keyDict : List (String × PyVal)) :
    List (String × PyVal) :=
  [("class", .str className), ("key", .obj keyDict)]

/-- TocoObject._get_relation_map: dict.update of the per-ancestor
contributions, base class first so the most-derived contribution
wins. -/
def getRelationMap (contribs : List (List (String × PyVal))) : List (String × PyVal) :=
  contribs.foldl (fun m contrib => contrib.foldl (fun m p => dictSet m p.1 p.2) m) []

/-- The relation-map recovery step of load_from_fkey: check the prefix
and json.loads the payload. -/
def decodeFkeyPayload (s : String) : Option PyVal :=
  if pyStartsWith s FKEY_PREFIX then jsonLoads (s.data.drop FKEY_PREFIX.data.length)
  else none

/-- Insertion permutes to consing. -/
theorem insertKeyed_perm (p : String × PyVal) (l : List (String × PyVal)) :
    List.Perm (insertKeyed p l) (p :: l) := by
  induction l with
  | nil => rfl
  | cons q rest ih =>
      by_cases h : p.1 ≤ q.1
      · simp [insertKeyed, h]
      · simp only [insertKeyed, h, if_false]
        exact (ih.cons q).trans (List.Perm.swap p q rest)

/-- Key-sorting is a permutation. -/
theorem insertionSortKeys_perm (l : List (String × PyVal)) :
    List.Perm (insertionSortKeys l) l := by
  induction l with
  | nil => rfl
  | cons p rest ih => exact (insertKeyed_perm p (insertionSortKeys rest)).trans (ih.cons p)

/-- Entries of the value-sorted list come from entries of the
original. -/
theorem mem_sortKeysObjVals {k : String} {v' : PyVal} {l : List (String × PyVal)} :
    (k, v') ∈ sortKeysObjVals l ↔ ∃ v, (k, v) ∈ l ∧ v' = sortKeysRec v := by
  induction l with
  | nil => simp [sortKeysObjVals]
  | cons p rest ih =>
      match p with
      | (k0, v0) =>
          simp only [sortKeysObjVals, List.mem_cons, Prod.mk.injEq, ih]
          constructor
          · rintro (⟨hk, hv⟩ | ⟨v, hv, rfl⟩)
            · exact ⟨v0, Or.inl (by simp [hk]), hv⟩
            · exact ⟨v, Or.inr hv, rfl⟩
          · rintro ⟨v, h | h, rfl⟩
            · exact Or.inl ⟨h.1, by rw [h.2]⟩
            · exact Or.inr ⟨v, h, rfl⟩

/-- Keys are untouched by value-sorting. -/
theorem listKeys_sortKeysObjVals (l : List (String × PyVal)) :
    listKeys (sortKeysObjVals l) = listKeys l := by
  induction l with
  | nil => rfl
  | cons p rest ih =>
      match p with
      | (k0, v0) => simp [sortKeysObjVals, listKeys] at ih ⊢; exact ih

/-- Duplicate-freedom in terms of `List.Nodup` on the keys. -/
theorem noDupKeys_iff_nodup (l : List (String × PyVal)) :
    noDupKeys l = true ↔ (listKeys l).Nodup := by
  induction l with
  | nil => simp [noDupKeys, listKeys]
  | cons p rest ih =>
      match p with
      | (k0, v0) =>
          simp only [noDupKeys, Bool.and_eq_true, Option.isNone_iff_eq_none,
            dictGet_none_iff, listKeys, List.map_cons, List.nodup_cons, ih]
          constructor
          · rintro ⟨h1, h2⟩
            refine ⟨?_, h2⟩
            intro hmem
            obtain ⟨q, hq, hq2⟩ := List.mem_map.mp hmem
            exact h1 q hq hq2
          · rintro ⟨h1, h2⟩
            refine ⟨?_, h2⟩
            intro q hq hq2
            exact h1 (List.mem_map.mpr ⟨q, hq, hq2⟩)

/-- Lookup of a present key in a duplicate-free dict. -/
theorem dictGet_of_mem_nodup {l : List (String × PyVal)} {k : String} {v : PyVal}
    (hnd : noDupKeys l = true) (hm : (k, v) ∈ l) : dictGet l k = some v := by
  induction l with
  | nil => simp at hm
  | cons p rest ih =>
      match p with
      | (k0, v0) =>
          simp only [noDupKeys, Bool.and_eq_true, Option.isNone_iff_eq_none,
            dictGet_none_iff] at hnd
          simp only [List.mem_cons, Prod.mk.injEq] at hm
          rcases hm with ⟨hk, hv⟩ | hm
          · subst hk hv
            simp [dictGet]
          · have hk0 : k0 ≠ k := by
              intro he
              exact hnd.1 (k, v) hm (by simp [he])
            simp only [dictGet, if_neg hk0]
            exact ih hnd.2 hm

/-- Presence of a key makes lookup succeed. -/
theorem dictGet_isSome_of_mem {l : List (String × PyVal)} {k : String} {v : PyVal}
    (hm : (k, v) ∈ l) : (dictGet l k).isSome = true := by
  induction l with
  | nil => simp at hm
  | cons p rest ih =>
      match p with
      | (k0, v0) =>
          simp only [List.mem_cons, Prod.mk.injEq] at hm
          by_cases hk : k0 = k
          · simp [dictGet, hk]
          · rcases hm with ⟨hk0, _⟩ | hm
            · exact absurd hk0.symm hk
            · simp only [dictGet, if_neg hk]
              exact ih hm

/-- Object well-formedness in membership form. -/
theorem wfKeysObj_iff (l : List (String × PyVal)) :
    wfKeysObj l = true ↔ ∀ p ∈ l, PyVal.wfKeys p.2 = true := by
  induction l with
  | nil => simp [wfKeysObj]
  | cons p rest ih =>
      match p with
      | (k0, v0) => simp [wfKeysObj, ih]

/-- List well-formedness in membership form. -/
theorem wfKeysList_iff (l : List PyVal) :
    wfKeysList l = true ↔ ∀ v ∈ l, PyVal.wfKeys v = true := by
  induction l with
  | nil => simp [wfKeysList]
  | cons v rest ih => simp [wfKeysList, ih]

/-- Membership view of the recursively sorted list. -/
theorem mem_sortKeysList {v' : PyVal} {l : List PyVal} :
    v' ∈ sortKeysList l ↔ ∃ v ∈ l, v' = sortKeysRec v := by
  induction l with
  | nil => simp [sortKeysList]
  | cons v rest ih =>
      simp only [sortKeysList, List.mem_cons, ih]
      constructor
      · rintro (rfl | ⟨v2, hv2, rfl⟩)
        · exact ⟨v, Or.inl rfl, rfl⟩
        · exact ⟨v2, Or.inr hv2, rfl⟩
      · rintro ⟨v2, rfl | hv2, rfl⟩
        · exact Or.inl rfl
        · exact Or.inr ⟨v2, hv2, rfl⟩

/-- Sufficient membership condition for the dict-inclusion check. -/
theorem pyEqObjB_of_forall (L l : List (String × PyVal))
    (h : ∀ p ∈ L, ∃ w, dictGet l p.1 = some w ∧ pyEqB p.2 w = true) :
    pyEqObjB L l = true := by
  induction L with
  | nil => rfl
  | cons p rest ih =>
      match p with
      | (k0, v0) =>
          obtain ⟨w, hw, heq⟩ := h (k0, v0) (by simp)
          simp only [pyEqObjB, hw, Bool.and_eq_true]
          exact ⟨heq, ih (fun q hq => h q (by simp [hq]))⟩

/-- Sorting every object level by key preserves well-formedness and is
Python-equal (`==`) to the original value. -/
theorem sortKeys_wf_and_eq : ∀ (n : Nat) (x : PyVal), sizeOf x ≤ n →
    PyVal.wfKeys x = true →
    PyVal.wfKeys (sortKeysRec x) = true ∧ pyEqB (sortKeysRec x) x = true := by
  intro n
  induction n with
  | zero =>
      intro x hx
      exact absurd hx (by cases x <;> simp)
  | succ n ih =>
      intro x hx hwf
      match x with
      | .null => exact ⟨rfl, rfl⟩
      | .bool b => exact ⟨rfl, by simp [sortKeysRec, pyEqB]⟩
      | .int m => exact ⟨rfl, by simp [sortKeysRec, pyEqB]⟩
      | .str s => exact ⟨rfl, by simp [sortKeysRec, pyEqB]⟩
      | .arr l =>
          have hball : ∀ v ∈ l, PyVal.wfKeys (sortKeysRec v) = true ∧
              pyEqB (sortKeysRec v) v = true := by
            intro v hv
            have hs : sizeOf v < sizeOf (PyVal.arr l) := by
              have := List.sizeOf_lt_of_mem hv
              simp only [PyVal.arr.sizeOf_spec]
              omega
            exact ih v (by omega) ((wfKeysList_iff l).mp (by simpa [PyVal.wfKeys] using hwf) v hv)
          constructor
          · simp only [sortKeysRec, PyVal.wfKeys, wfKeysList_iff]
            intro v' hv'
            obtain ⟨v, hv, rfl⟩ := mem_sortKeysList.mp hv'
            exact (hball v hv).1
          · simp only [sortKeysRec, pyEqB]
            clear hx hwf
            induction l with
            | nil => rfl
            | cons v rest ihl =>
                simp only [sortKeysList, pyEqListB, Bool.and_eq_true]
                exact ⟨(hball v (by simp)).2,
                  ihl (fun v' hv' => hball v' (by simp [hv']))⟩
      | .obj l =>
          have hnd : noDupKeys l = true := by
            simp only [PyVal.wfKeys, Bool.and_eq_true] at hwf
            exact hwf.1
          have hball : ∀ p ∈ l, PyVal.wfKeys (sortKeysRec p.2) = true ∧
              pyEqB (sortKeysRec p.2) p.2 = true := by
            intro p hp
            have hs : sizeOf p.2 < sizeOf (PyVal.obj l) := by
              have h1 := List.sizeOf_lt_of_mem hp
              have h2 : sizeOf p.2 < sizeOf p := by
                match p with
                | (a, b) => simp
              simp only [PyVal.obj.sizeOf_spec]
              omega
            have hwfp : PyVal.wfKeys p.2 = true := by
              simp only [PyVal.wfKeys, Bool.and_eq_true] at hwf
              exact (wfKeysObj_iff l).mp hwf.2 p hp
            exact ih p.2 (by omega) hwfp
          have hperm : List.Perm (insertionSortKeys (sortKeysObjVals l)) (sortKeysObjVals l) :=
            insertionSortKeys_perm _
          constructor
          · simp only [sortKeysRec, PyVal.wfKeys, Bool.and_eq_true]
            constructor
            · rw [noDupKeys_iff_nodup]
              have hkperm : List.Perm (listKeys (insertionSortKeys (sortKeysObjVals l)))
                  (listKeys (sortKeysObjVals l)) := hperm.map Prod.fst
              rw [hkperm.nodup_iff, listKeys_sortKeysObjVals]
              exact (noDupKeys_iff_nodup l).mp hnd
            · rw [wfKeysObj_iff]
              intro p hp
              have hp2 : p ∈ sortKeysObjVals l := hperm.mem_iff.mp hp
              match p with
              | (k, v') =>
                  obtain ⟨v, hv, rfl⟩ := mem_sortKeysObjVals.mp hp2
                  exact (hball (k, v) hv).1
          · simp only [sortKeysRec, pyEqB, Bool.and_eq_true]
            constructor
            · apply pyEqObjB_of_forall
              intro p hp
              have hp2 : p ∈ sortKeysObjVals l := hperm.mem_iff.mp hp
              match p with
              | (k, v') =>
                  obtain ⟨v, hv, rfl⟩ := mem_sortKeysObjVals.mp hp2
                  exact ⟨v, dictGet_of_mem_nodup hnd hv, (hball (k, v) hv).2⟩
            · rw [List.all_eq_true]
              intro p hp
              have : (p.1, sortKeysRec p.2) ∈ sortKeysObjVals l :=
                mem_sortKeysObjVals.mpr ⟨p.2, by simpa using hp, rfl⟩
              have hmem : (p.1, sortKeysRec p.2) ∈ insertionSortKeys (sortKeysObjVals l) :=
                hperm.mem_iff.mpr this
              simpa using dictGet_isSome_of_mem hmem

/-- Prefix test on an explicit prefix concatenation. -/
theorem isPrefixOf_append (l1 l2 : List Char) : List.isPrefixOf l1 (l1 ++ l2) = true := by
  induction l1 with
  | nil => simp [List.isPrefixOf]
  | cons c rest ih => simpa [List.isPrefixOf] using ih

/-- C5: decoding the foreign-key string encoded from a relation map
recovers a value Python-equal (`==`) to that relation map, for every
relation map with duplicate-free keys at every level. -/
theorem C5_fkey_roundtrip (m : List (String × PyVal))
    (hwf : PyVal.wfKeys (.obj m) = true) :
    ∃ v, decodeFkeyPayload (foreignKeyOfRelationMap m) = some v ∧
      pyEqB v (.obj m) = true := by
  obtain ⟨hwf', heq⟩ := sortKeys_wf_and_eq (sizeOf (PyVal.obj m)) (.obj m) (le_refl _) hwf
  refine ⟨sortKeysRec (.obj m), ?_, heq⟩
  rw [decodeFkeyPayload]
  rw [show (foreignKeyOfRelationMap m).data =
    FKEY_PREFIX.data ++ dumpsVal [] [] (sortKeysRec (.obj m)) from rfl]
  rw [show pyStartsWith (foreignKeyOfRelationMap m) FKEY_PREFIX = true from by
    rw [pyStartsWith]
    exact isPrefixOf_append _ _]
  rw [if_pos rfl, List.drop_left]
  exact jsonLoads_dumpsVal [] [] rfl rfl _ hwf'

/-- Witness for C5 at the relation map built by the relation-map merge
for a single-class chain with a one-attribute key. -/
theorem C5_fkey_roundtrip_witness :
    PyVal.wfKeys (.obj (getRelationMap
        [getClassRelationMap "myapp.User" [("email", .str "a@b.com")]])) = true ∧
      ∃ v, decodeFkeyPayload (foreignKeyOfRelationMap (getRelationMap
          [getClassRelationMap "myapp.User" [("email", .str "a@b.com")]])) = some v ∧
        pyEqB v (.obj (getRelationMap
          [getClassRelationMap "myapp.User" [("email", .str "a@b.com")]])) = true :=
  ⟨by decide, C5_fkey_roundtrip _ (by decide)⟩

/-- Python subscription obj['k'] as a total function: succeeds exactly
on dicts containing the key (a TypeError on non-dicts or a KeyError on
missing keys is caught by the bare except in is_foreign_key). -/
def pySubscript : PyVal → String → Option PyVal
  | .obj l, k => dictGet l k
  | _, _ => none

/-- Module function is_foreign_key: False on non-strings and
non-prefixed strings, True on the constant sentinel, and for other
prefixed strings True exactly when the payload parses as JSON and
subscription by both 'class' and 'key' succeeds. -/
def isForeignKeyB : PyVal → Bool
  | .str s =>
      if !(pyStartsWith s FKEY_PREFIX) then false
      else if s = FKEY_EMPTY_STRING then true
      else
        match jsonLoads (s.data.drop FKEY_PREFIX.data.length) with
        | some j => (pySubscript j "class").isSome && (pySubscript j "key").isSome
        | none => false
  | _ => false

/-- C9: the foreign-key test is total (Boolean on every value, no
exception escapes) and returns True exactly for the empty-string
sentinel and for prefixed strings whose payload parses with both a
class name and a key; every other value - non-strings, unprefixed
strings, prefixed but malformed strings - yields False. -/
theorem C9_is_foreign_key_total (v : PyVal) :
    isForeignKeyB v = true ↔
      (v = .str FKEY_EMPTY_STRING ∨
        ∃ s j, v = .str s ∧ pyStartsWith s FKEY_PREFIX = true ∧
          jsonLoads (s.data.drop FKEY_PREFIX.data.length) = some j ∧
          (pySubscript j "class").isSome = true ∧ (pySubscript j "key").isSome = true) := by
  match v with
  | .null => simp [isForeignKeyB]
  | .bool b => simp [isForeignKeyB]
  | .int n => simp [isForeignKeyB]
  | .arr l => simp [isForeignKeyB]
  | .obj l => simp [isForeignKeyB]
  | .str s =>
      simp only [isForeignKeyB]
      by_cases hpre : pyStartsWith s FKEY_PREFIX = true
      · simp only [hpre, Bool.not_true, Bool.false_eq_true, if_false]
        by_cases hsent : s = FKEY_EMPTY_STRING
        · subst hsent
          simp
        · simp only [hsent, if_false]
          cases hl : jsonLoads (s.data.drop FKEY_PREFIX.data.length) with
          | none =>
              simp only [Bool.false_eq_true, false_iff]
              push_neg
              constructor
              · simpa [PyVal.str.injEq] using hsent
              · intro s' j hs
                rw [PyVal.str.injEq] at hs
                subst hs
                intro _ hj
                rw [hl] at hj
                simp at hj
          | some j =>
              constructor
              · intro h
                simp only [Bool.and_eq_true] at h
                exact Or.inr ⟨s, j, rfl, hpre, hl, h.1, h.2⟩
              · intro h
                rcases h with h | ⟨s', j', hs, _, hj, h1, h2⟩
                · exact absurd (by simpa [PyVal.str.injEq] using h) hsent
                · rw [PyVal.str.injEq] at hs
                  subst hs
                  rw [hl] at hj
                  rw [Option.some_inj] at hj
                  subst hj
                  simp [h1, h2]
      · have hpre' : pyStartsWith s FKEY_PREFIX = false := by
          simpa using hpre
        simp only [hpre', Bool.not_false, if_true, Bool.false_eq_true, false_iff]
        push_neg
        constructor
        · intro he
          rw [PyVal.str.injEq] at he
          subst he
          exact hpre (by decide)
        · intro s' j hs
          rw [PyVal.str.injEq] at hs
          subst hs
          intro hp
          exact absurd hp hpre

/-- Table schema as the layer consumes it: the hash key name, the
optional range key name, and the type's required non-key attributes
(_REQUIRED_ATTRS). -/
structure Schema where
  hashKey : String
  rangeKey : Option String
  requiredAttrs : List String

/-- BaseTocoObject._get_required_attributes: the key names followed by
the declared required attributes. -/
def Schema.requiredAttributes (s : Schema) : List String :=
  (match s.rangeKey with
   | some r => [s.hashKey, r]
   | none => [s.hashKey]) ++ s.requiredAttrs

/-- The persistent-object instance state: _obj_dict, _obj_updates,
_fkey_cache (resolved references, kept as the reference strings at this
model's boundary), _in_db, _needs_reloaded.  (_obj_loaded is written by
_clear_update_record but never read, and is omitted.) -/
structure TObj where
  objDict : List (String × PyVal)
  objUpdates : List (String × PyVal)
  fkeyCache : List (String × String)
  inDb : Bool
  needsReloaded : Bool

/-- Compound-attribute registry entry: the function and the
persist-on-save flag ({"func": attrfunc, "save": save}). -/
structure CompEntry where
  func : TObj → PyVal
  save : Bool

/-- TocoObject.__setattr__ for non-underscore names carrying plain
values: store in the attribute dict, drop any cached resolved object
for the name, and record every name except the version key as a
pending update.  (TocoObject-valued assignments store the encoded
foreign key instead; underscore names set the plain instance fields,
which this model holds as the structure fields.) -/
def tocoSetattr (o : TObj) (name : String) (v : PyVal) : TObj :=
  let o1 : TObj := { o with objDict := dictSet o.objDict name v,
                            fkeyCache := dictDel o.fkeyCache name }
  if name = VERSION_KEY then o1
  else { o1 with objUpdates := dictSet o1.objUpdates name v }

/-- TocoObject._reload (via _load): replace the attribute dict with the
stored row (an empty bag when absent), set _in_db, and clear the update
record.  The needs-reload flag itself is reset by the caller in
__getattribute__. -/
def tocoReload (store : Option (List (String × PyVal))) (o : TObj) : TObj :=
  { o with objDict := store.getD [], inDb := true, objUpdates := [] }

/-- Result of an attribute read: a plain value, or the designator of a
foreign-key reference (whose resolution into a live object is the model
boundary - no claim inspects the resolved referent). -/
inductive GetVal where
  | val : PyVal → GetVal
  | ref : String → GetVal

/-- TocoObject.__getattribute__ for a non-underscore name: reload first
when the needs-reload flag is set, then consult the attribute dict
(resolving values that are foreign keys and caching the resolution),
then the type's compound registry (calling the function on the
object), then the miss policy (None).  The lookup step returns the
result and the possibly mutated object; the wrapper below adds the
number of store reads performed.  (datetime-string revival is the
identity on this model's values.) -/
def getattrLookup (store : Option (List (String × PyVal))) (comp : List (String × CompEntry))
    (o1 : TObj) (name : String) : GetVal × TObj :=
  match dictGet o1.objDict name with
  | some v =>
      if isForeignKeyB v then
        match v with
        | .str s => (.ref s, { o1 with fkeyCache := dictSet o1.fkeyCache name s })
        | _ => (.val v, o1)
      else (.val v, o1)
  | none =>
      match dictGet comp name with
      | some e => (.val (e.func o1), o1)
      | none => (.val .null, o1)

/-- The reload-first wrapper of `getattrLookup`, with the fetch
count. -/
def tocoGetattr (store : Option (List (String × PyVal))) (comp : List (String × CompEntry))
    (o : TObj) (name : String) : GetVal × TObj × Nat :=
  let p : TObj × Nat :=
    if o.needsReloaded then ({ tocoReload store o with needsReloaded := false }, 1)
    else (o, 0)
  let r := getattrLookup store comp p.1 name
  (r.1, r.2, p.2)

/-- TocoObject._update_attrs_changed: register a constructor override
as a change only when it differs (Python !=) from the current
attribute value. -/
def updateAttrsChanged (store : Option (List (String × PyVal)))
    (comp : List (String × CompEntry)) (o : TObj) (kwargs : List (String × PyVal)) : TObj :=
  kwargs.foldl
    (fun o p =>
      let r := tocoGetattr store comp o p.1
      match r.1 with
      | .val w => if pyEqB w p.2 then r.2.1 else tocoSetattr r.2.1 p.1 p.2
      | .ref _ => tocoSetattr r.2.1 p.1 p.2)
    o

/-- TocoObject.__init__: fresh state, version attribute set to 0,
_in_db from the keyword, then (when _attempt_load, its default being
true) one get_item by the key fields - merging a hit as the clean
baseline (constant foreign keys revived, update record cleared,
_in_db set) - and finally the overrides via _update_attrs_changed.
The store argument is the row at this object's key; the returned
number counts get_item calls. -/
def tocoInit (store : Option (List (String × PyVal))) (comp : List (String × CompEntry))
    (inDb : Bool) (attemptLoad : Bool) (kwargs : List (String × PyVal)) : TObj × Nat :=
  let o0 : TObj := { objDict := [], objUpdates := [], fkeyCache := [],
                     inDb := false, needsReloaded := false }
  let o1 := tocoSetattr o0 VERSION_KEY (.int 0)
  let o2 : TObj := { o1 with inDb := inDb }
  let p : TObj × Nat :=
    if attemptLoad then
      match store with
      | some item =>
          let o3 := (loadConstantFkeysObj item).foldl (fun o q => tocoSetattr o q.1 q.2) o2
          ({ o3 with objUpdates := [], inDb := true }, 1)
      | none => (o2, 1)
    else (o2, 0)
  (updateAttrsChanged store comp p.1 kwargs, p.2)

/-- BaseTocoObject._from_fkey: construct through the ordinary
initializer - _attempt_load keeps its default (true) unless the
reference's keyword arguments carried it, as _json_deserialize's do -
then set the needs-reload flag on the result. -/
def tocoFromFkey (store : Option (List (String × PyVal))) (comp : List (String × CompEntry))
    (attemptLoad : Bool) (kwargs : List (String × PyVal)) : TObj × Nat :=
  let p := tocoInit store comp false attemptLoad kwargs
  ({ p.1 with needsReloaded := true }, p.2)

/-- Condition expressions the layer builds: Attr(...).not_exists(),
Attr(...).exists(), Attr(...).eq(value), and Or. -/
inductive CondExpr where
  | notExists : String → CondExpr
  | existsAttr : String → CondExpr
  | eqAttr : String → PyVal → CondExpr
  | orC : CondExpr → CondExpr → CondExpr

/-- The store's evaluation of a condition against the current row:
attribute_not_exists holds on a missing item or attribute; exists and
equality fail on them. -/
def evalCE (item : Option (List (String × PyVal))) : CondExpr → Bool
  | .notExists a =>
      match item with
      | none => true
      | some d => (dictGet d a).isNone
  | .existsAttr a =>
      match item with
      | none => false
      | some d => (dictGet d a).isSome
  | .eqAttr a v =>
      match item with
      | none => false
      | some d =>
          match dictGet d a with
          | some w => PyVal.beq w v
          | none => false
  | .orC x y => evalCE item x || evalCE item y

/-- The exception kinds the save path can surface. -/
inductive PyErr where
  | clientError : Bool → PyErr
  | runtimeError : PyErr
  | typeError : PyErr
  | nameError : PyErr
  | indexError : PyErr
deriving DecidableEq

/-- Table.put_item on the row at this object's key: a transport-level
failure propagates; otherwise the conditional write replaces the row
when the condition holds and raises a ClientError
(ConditionalCheckFailedException) when it does not. -/
def putItem (table : Option (List (String × PyVal))) (item : List (String × PyVal))
    (ce : Option CondExpr) (transport : Option PyErr) :
    Except PyErr (Option (List (String × PyVal))) :=
  match transport with
  | some e => .error e
  | none =>
      match ce with
      | some c => if evalCE table c then .ok (some item) else .error (.clientError true)
      | none => .ok (some item)

/-- TocoObject._get_dict_to_save: a copy of the attribute dict plus
every registered save=true compound attribute not already present,
in registration order. -/
def getDictToSave (comp : List (String × CompEntry)) (o : TObj) : List (String × PyVal) :=
  comp.foldl
    (fun d p =>
      if (dictGet d p.1).isSome then d
      else if p.2.save then dictSet d p.1 (p.2.func o) else d)
    o.objDict

/-- TocoObject._get_data_dict: the save view with every name matching a
reserved internal pattern removed. -/
def getDataDict (comp : List (String × CompEntry)) (o : TObj) : List (String × PyVal) :=
  (getDictToSave comp o).filter (fun p => !reservedName p.1)

/-- TocoObject._store: require every required attribute present and
truthy in the save view (RuntimeError otherwise, before any write),
convert the view to the store-safe representation, then put with the
optional condition. -/
def tocoStore (schema : Schema) (comp : List (String × CompEntry))
    (table : Option (List (String × PyVal))) (transport : Option PyErr)
    (o : TObj) (ce : Option CondExpr) :
    Except PyErr (Option (List (String × PyVal))) :=
  let d := getDictToSave comp o
  let missing := schema.requiredAttributes.filter
    (fun r => (dictGet d r).isNone || pyFalsy ((dictGet d r).getD .null))
  if missing.isEmpty then putItem table (ensureDdbsafeObj d) ce transport
  else .error .runtimeError

/-- The condition expression _save builds from its mode flags: the
create condition is version-absent; the update condition is
version-exists under force and version-equals-in-memory otherwise;
force with both save flags sends no condition, upsert their
disjunction, update-only the update condition, create-only the create
condition. -/
def buildCE (force saveIfMissing saveIfExisting : Bool) (oldVersion : PyVal) : Option CondExpr :=
  let createCondition := CondExpr.notExists VERSION_KEY
  let updateCondition :=
    if force then CondExpr.existsAttr VERSION_KEY else CondExpr.eqAttr VERSION_KEY oldVersion
  if force && saveIfMissing && saveIfExisting then none
  else if saveIfMissing && saveIfExisting then some (.orC createCondition updateCondition)
  else if saveIfExisting then some updateCondition
  else some createCondition

/-- Outcome of a save call: the object state, the row state, and the
surfaced exception, if any. -/
structure SaveResult where
  obj : TObj
  table : Option (List (String × PyVal))
  err : Option PyErr

/-- TocoObject._save: reject contradictory flags; short-circuit when
only_if_updated and nothing is pending; read the in-memory version,
build the precondition, optimistically increment the version, store;
on success clear the update record and set _in_db; on ClientError
restore the pre-attempt version and re-raise; any other exception
(validation RuntimeError, transport failures) propagates with the
version left incremented.  A non-integer (or absent) version raises
TypeError at old_version+1, before any mutation. -/
def tocoSave (schema : Schema) (comp : List (String × CompEntry))
    (table : Option (List (String × PyVal))) (transport : Option PyErr) (o : TObj)
    (force saveIfMissing saveIfExisting onlyIfUpdated : Bool) : SaveResult :=
  if !saveIfMissing && !saveIfExisting then ⟨o, table, some .runtimeError⟩
  else if onlyIfUpdated && o.objUpdates.isEmpty then ⟨o, table, none⟩
  else
    match dictGet o.objDict VERSION_KEY with
    | some (.int old) =>
        let ce := buildCE force saveIfMissing saveIfExisting (.int old)
        let o1 := tocoSetattr o VERSION_KEY (.int (old + 1))
        match tocoStore schema comp table transport o1 ce with
        | .ok table2 => ⟨{ o1 with objUpdates := [], inDb := true }, table2, none⟩
        | .error e =>
            match e with
            | .clientError b =>
                ⟨tocoSetattr o1 VERSION_KEY (.int old), table, some (.clientError b)⟩
            | _ => ⟨o1, table, some e⟩
    | _ => ⟨o, table, some .typeError⟩

/-- TocoObject._update: _save with save_if_existing only. -/
def tocoUpdate (schema : Schema) (comp : List (String × CompEntry))
    (table : Option (List (String × PyVal))) (transport : Option PyErr) (o : TObj)
    (force : Bool) : SaveResult :=
  tocoSave schema comp table transport o force false true false

/-- TocoObject._create as written: the body reads the undefined name
force (def _create(self): return self._save(force=force,
save_if_existing=False, save_if_missing=True)), so every call raises
NameError before _save runs - compare _update just above it, which
declares force=False. -/
def tocoCreate (schema : Schema) (comp : List (String × CompEntry))
    (table : Option (List (String × PyVal))) (transport : Option PyErr) (o : TObj) :
    SaveResult :=
  ⟨o, table, some .nameError⟩

/-- Lookup after assignment at the same key yields the assigned value. -/
theorem dictGet_dictSet_self {α : Type} (d : List (String × α)) (k : String) (v : α) :
    dictGet (dictSet d k v) k = some v := by
  induction d with
  | nil => simp [dictSet, dictGet]
  | cons p rest ih =>
      obtain ⟨k', v'⟩ := p
      by_cases h : k' = k
      · simp [dictSet, dictGet, h]
      · simp [dictSet, dictGet, h, ih]

/-- Assignment at a different key leaves a lookup unchanged. -/
theorem dictGet_dictSet_ne {α : Type} (d : List (String × α)) (k' k : String) (v : α)
    (h : k' ≠ k) : dictGet (dictSet d k' v) k = dictGet d k := by
  induction d with
  | nil => simp [dictSet, dictGet, h]
  | cons p rest ih =>
      obtain ⟨k0, v0⟩ := p
      by_cases h0 : k0 = k'
      · subst h0; simp [dictSet, dictGet, h]
      · by_cases h1 : k0 = k
        · have h2 : ¬(k = k') := fun he => h he.symm
          simp [dictSet, dictGet, h0, h1, h2]
        · simp [dictSet, dictGet, h0, h1, ih]

/-- The store-safe conversion maps lookups through `ensureDdbsafe`. -/
theorem dictGet_ensureDdbsafeObj (d : List (String × PyVal)) (k : String) :
    dictGet (ensureDdbsafeObj d) k = (dictGet d k).map ensureDdbsafe := by
  induction d with
  | nil => simp [ensureDdbsafeObj, dictGet]
  | cons p rest ih =>
      obtain ⟨k0, v0⟩ := p
      by_cases h : k0 = k
      · simp [ensureDdbsafeObj, dictGet, h]
      · simp [ensureDdbsafeObj, dictGet, h, ih]

/-- Folding compound entries over a dict only adds keys not already
present, so a present key's lookup is unchanged. -/
theorem dictGet_compFold (o : TObj) (comp : List (String × CompEntry))
    (d : List (String × PyVal)) (k : String) (h : (dictGet d k).isSome = true) :
    dictGet (comp.foldl (fun d p =>
      if (dictGet d p.1).isSome then d
      else if p.2.save then dictSet d p.1 (p.2.func o) else d) d) k = dictGet d k := by
  induction comp generalizing d with
  | nil => rfl
  | cons p rest ih =>
      simp only [List.foldl_cons]
      by_cases h1 : (dictGet d p.1).isSome = true
      · rw [if_pos h1]; exact ih d h
      · rw [if_neg h1]
        by_cases h2 : p.2.save = true
        · rw [if_pos h2]
          have hne : p.1 ≠ k := by
            intro he; rw [he] at h1; exact h1 h
          have hget : dictGet (dictSet d p.1 (p.2.func o)) k = dictGet d k :=
            dictGet_dictSet_ne d p.1 k _ hne
          rw [ih _ (by rw [hget]; exact h), hget]
        · rw [if_neg h2]; exact ih d h

/-- The save view only adds compound attributes at keys not already
present, so a present key's value is unchanged. -/
theorem dictGet_getDictToSave (comp : List (String × CompEntry)) (o : TObj) (k : String)
    (h : (dictGet o.objDict k).isSome = true) :
    dictGet (getDictToSave comp o) k = dictGet o.objDict k := by
  unfold getDictToSave
  exact dictGet_compFold o comp o.objDict k h

/-- C2: the write precondition _save sends to the store is exactly
determined by the mode flags: create-only (save_if_missing only) sends
version-not-exists; update-only (save_if_existing only) sends
version-equals-the-held-value; the default upsert sends their
disjunction; force sends no condition at all. -/
theorem C2_precondition_by_mode (old : PyVal) :
    buildCE false true false old = some (.notExists VERSION_KEY) ∧
    buildCE false false true old = some (.eqAttr VERSION_KEY old) ∧
    buildCE false true true old =
      some (.orC (.notExists VERSION_KEY) (.eqAttr VERSION_KEY old)) ∧
    buildCE true true true old = none :=
  ⟨rfl, rfl, rfl, rfl⟩

/-- Schema with hash key id and no other required attributes. -/
def c4Schema : Schema := ⟨"id", none, []⟩

/-- Fresh (never saved) object with hash key id = x. -/
def c4Obj : TObj := ⟨[(VERSION_KEY, .int 0), ("id", .str "x")], [("id", .str "x")], [], false, false⟩

/-- Object state as loaded from an existing row at version 1. -/
def c4Loaded : TObj := ⟨[(VERSION_KEY, .int 1), ("id", .str "x")], [], [], true, false⟩

/-- The existing stored row matching `c4Loaded`. -/
def c4Table : Option (List (String × PyVal)) := some [("id", .str "x"), (VERSION_KEY, .int 1)]

/-- C4: update() on a nonexistent key does fail with the conditional
rejection, and update() on an existing unmodified key succeeds - but
create() never reaches the store at all: its body reads the undefined
name force, so it raises NameError on a fresh key (where the claim
says it succeeds) just as on an existing one. -/
theorem C4_create_update_bug :
    (tocoUpdate c4Schema [] none none c4Obj false).err = some (.clientError true) ∧
    (tocoUpdate c4Schema [] c4Table none c4Loaded false).err = none ∧
    (tocoCreate c4Schema [] none none c4Obj).err = some .nameError ∧
    (tocoCreate c4Schema [] c4Table none c4Loaded).err = some .nameError :=
  ⟨rfl, rfl, rfl, rfl⟩

/-- Discrimination of the one exception class _save catches. -/
def isClientError : PyErr → Bool
  | .clientError _ => true
  | _ => false

/-- C1 (amended): when a save attempt with at least one save flag set
fails, the failure is surfaced; the version counter is restored to its
pre-attempt value exactly when the failure is a ClientError
(conditional-write rejection) - any other failure, in particular the
validation RuntimeError raised by _store, escapes the except clause
and leaves the version incremented. -/
theorem C1_save_version_amended (schema : Schema) (comp : List (String × CompEntry))
    (table : Option (List (String × PyVal))) (transport : Option PyErr) (o : TObj)
    (force sim sie oiu : Bool) (n : Int) (e : PyErr)
    (hv : dictGet o.objDict VERSION_KEY = some (.int n))
    (hflags : (sim || sie) = true)
    (he : (tocoSave schema comp table transport o force sim sie oiu).err = some e) :
    dictGet (tocoSave schema comp table transport o force sim sie oiu).obj.objDict
        VERSION_KEY = some (.int (if isClientError e then n else n + 1)) := by
  have h1 : (!sim && !sie) = false := by
    cases sim <;> cases sie <;> simp_all
  by_cases h2 : (oiu && o.objUpdates.isEmpty) = true
  · simp only [tocoSave, h1, Bool.false_eq_true, if_false, h2, if_true] at he
    exact absurd he (by simp)
  · rw [Bool.not_eq_true] at h2
    simp only [tocoSave, h1, Bool.false_eq_true, if_false, h2, hv] at he ⊢
    rcases hstore : tocoStore schema comp table transport
        (tocoSetattr o VERSION_KEY (.int (n + 1)))
        (buildCE force sim sie (.int n)) with e' | t2
    · rw [hstore] at he
      cases e' with
      | clientError b =>
          have he2 : some (PyErr.clientError b) = some e := he
          injection he2 with he3
          subst he3
          show dictGet (tocoSetattr (tocoSetattr o VERSION_KEY (PyVal.int (n + 1)))
              VERSION_KEY (PyVal.int n)).objDict VERSION_KEY =
            some (PyVal.int (if isClientError (PyErr.clientError b) then n else n + 1))
          simp [tocoSetattr, dictGet_dictSet_self, isClientError]
      | runtimeError =>
          have he2 : some PyErr.runtimeError = some e := he
          injection he2 with he3
          subst he3
          show dictGet (tocoSetattr o VERSION_KEY (PyVal.int (n + 1))).objDict VERSION_KEY =
            some (PyVal.int (if isClientError PyErr.runtimeError then n else n + 1))
          simp [tocoSetattr, dictGet_dictSet_self, isClientError]
      | typeError =>
          have he2 : some PyErr.typeError = some e := he
          injection he2 with he3
          subst he3
          show dictGet (tocoSetattr o VERSION_KEY (PyVal.int (n + 1))).objDict VERSION_KEY =
            some (PyVal.int (if isClientError PyErr.typeError then n else n + 1))
          simp [tocoSetattr, dictGet_dictSet_self, isClientError]
      | nameError =>
          have he2 : some PyErr.nameError = some e := he
          injection he2 with he3
          subst he3
          show dictGet (tocoSetattr o VERSION_KEY (PyVal.int (n + 1))).objDict VERSION_KEY =
            some (PyVal.int (if isClientError PyErr.nameError then n else n + 1))
          simp [tocoSetattr, dictGet_dictSet_self, isClientError]
      | indexError =>
          have he2 : some PyErr.indexError = some e := he
          injection he2 with he3
          subst he3
          show dictGet (tocoSetattr o VERSION_KEY (PyVal.int (n + 1))).objDict VERSION_KEY =
            some (PyVal.int (if isClientError PyErr.indexError then n else n + 1))
          simp [tocoSetattr, dictGet_dictSet_self, isClientError]
    · rw [hstore] at he
      exact absurd (show (none : Option PyErr) = some e from he) (by simp)

/-- Schema whose required attributes are the hash key id plus name. -/
def c1Schema : Schema := ⟨"id", none, ["name"]⟩

/-- Object with hash key id = x and no name attribute, version 0. -/
def c1Obj : TObj := ⟨[(VERSION_KEY, .int 0), ("id", .str "x")], [("id", .str "x")], [], false, false⟩

/-- C1 counterexample to the original claim: a default save of an
object missing a required attribute surfaces the validation
RuntimeError, yet leaves the in-memory version at 1 although it was 0
before the attempt - the failure does not restore the version. -/
theorem C1_save_version_counterexample :
    (tocoSave c1Schema [] none none c1Obj false true true false).err = some .runtimeError ∧
    dictGet c1Obj.objDict VERSION_KEY = some (.int 0) ∧
    dictGet (tocoSave c1Schema [] none none c1Obj false true true false).obj.objDict
        VERSION_KEY = some (.int 1) :=
  ⟨rfl, rfl, rfl⟩

/-- Schema with hash key id only. -/
def c1SchemaOk : Schema := ⟨"id", none, []⟩

/-- C1 witness: an update of a key absent from the table is rejected by
the store (ClientError), and the version is restored to 0. -/
theorem C1_save_version_amended_witness :
    dictGet (tocoSave c1SchemaOk [] none none c1Obj false false true false).obj.objDict
        VERSION_KEY = some (.int (if isClientError (.clientError true) then 0 else 0 + 1)) :=
  C1_save_version_amended c1SchemaOk [] none none c1Obj false false true false 0
    (.clientError true) rfl rfl rfl

/-- A successful _store is the conditional put of the store-safe save
view: validation passed, and the row written is ensure_ddbsafe of
_get_dict_to_save. -/
theorem tocoStore_ok_shape (schema : Schema) (comp : List (String × CompEntry))
    (table : Option (List (String × PyVal))) (transport : Option PyErr) (o : TObj)
    (ce : Option CondExpr) (t2 : Option (List (String × PyVal)))
    (h : tocoStore schema comp table transport o ce = .ok t2) :
    t2 = some (ensureDdbsafeObj (getDictToSave comp o)) := by
  simp only [tocoStore] at h
  split at h
  · unfold putItem at h
    rcases transport with _ | e
    · rcases ce with _ | c
      · exact (Except.ok.inj h).symm
      · simp only at h
        split at h
        · exact (Except.ok.inj h).symm
        · cases h
    · cases h
  · cases h

/-- Object with hash key id = x at version 0, as a save candidate. -/
def c7Obj : TObj := ⟨[(VERSION_KEY, .int 0), ("id", .str "x")], [("id", .str "x")], [], false, false⟩

/-- Schema with hash key id only. -/
def c7Schema : Schema := ⟨"id", none, []⟩

/-- C7 counterexample to the original claim: the version key matches a
reserved internal pattern, yet the row a successful save writes
contains it - _store persists _get_dict_to_save, which does not strip
reserved names. -/
theorem C7_reserved_counterexample :
    reservedName VERSION_KEY = true ∧
    ((tocoSave c7Schema [] none none c7Obj true true true false).table.map
        (fun row => (dictGet row VERSION_KEY).isSome)) = some true :=
  ⟨rfl, rfl⟩

/-- C7 (amended): the reserved-pattern stripping lives in
_get_data_dict - every name in that view is unreserved - but the save
path persists _get_dict_to_save unfiltered: every successful save
(with only_if_updated unset) writes a row that still contains the
reserved version attribute. -/
theorem C7_reserved_data_dict_only (comp : List (String × CompEntry)) (o : TObj)
    (k : String) (hk : k ∈ listKeys (getDataDict comp o)) :
    reservedName k = false ∧
    ∀ (schema : Schema) (table : Option (List (String × PyVal))) (transport : Option PyErr)
      (force sim sie : Bool) (row : List (String × PyVal)),
      (tocoSave schema comp table transport o force sim sie false).err = none →
      (tocoSave schema comp table transport o force sim sie false).table = some row →
      (dictGet row VERSION_KEY).isSome = true := by
  constructor
  · simp only [listKeys, getDataDict] at hk
    rcases List.mem_map.mp hk with ⟨p, hp, hpk⟩
    rcases List.mem_filter.mp hp with ⟨_, hres⟩
    rw [← hpk]
    simpa using hres
  · intro schema table transport force sim sie row herr hrow
    by_cases h1 : (!sim && !sie) = true
    · simp only [tocoSave, h1, if_true] at herr
      exact absurd herr (by simp)
    · rw [Bool.not_eq_true] at h1
      simp only [tocoSave, h1, Bool.false_eq_true, if_false, Bool.false_and] at herr hrow
      rcases hver : dictGet o.objDict VERSION_KEY with _ | v
      · rw [hver] at herr; simp at herr
      · cases v with
        | int old =>
            simp only [hver] at herr hrow
            rcases hstore : tocoStore schema comp table transport
                (tocoSetattr o VERSION_KEY (.int (old + 1)))
                (buildCE force sim sie (.int old)) with e' | t2
            · rw [hstore] at herr
              cases e' with
              | clientError b =>
                  exact absurd (show some (PyErr.clientError b) = (none : Option PyErr)
                    from herr) (by simp)
              | runtimeError =>
                  exact absurd (show some PyErr.runtimeError = (none : Option PyErr)
                    from herr) (by simp)
              | typeError =>
                  exact absurd (show some PyErr.typeError = (none : Option PyErr)
                    from herr) (by simp)
              | nameError =>
                  exact absurd (show some PyErr.nameError = (none : Option PyErr)
                    from herr) (by simp)
              | indexError =>
                  exact absurd (show some PyErr.indexError = (none : Option PyErr)
                    from herr) (by simp)
            · rw [hstore] at hrow
              have hrow2 : t2 = some row := hrow
              have hshape := tocoStore_ok_shape schema comp table transport
                (tocoSetattr o VERSION_KEY (.int (old + 1)))
                (buildCE force sim sie (.int old)) t2 hstore
              rw [hshape] at hrow2
              injection hrow2 with hrow3
              have hv1 : dictGet (tocoSetattr o VERSION_KEY (.int (old + 1))).objDict
                  VERSION_KEY = some (.int (old + 1)) := by
                simp [tocoSetattr, dictGet_dictSet_self]
              have hd : dictGet (getDictToSave comp
                  (tocoSetattr o VERSION_KEY (.int (old + 1)))) VERSION_KEY =
                  some (.int (old + 1)) := by
                rw [dictGet_getDictToSave _ _ _ (by rw [hv1]; rfl)]
                exact hv1
              rw [← hrow3, dictGet_ensureDdbsafeObj, hd]
              rfl
        | null => rw [hver] at herr; simp at herr
        | bool b => rw [hver] at herr; simp at herr
        | str s => rw [hver] at herr; simp at herr
        | arr l => rw [hver] at herr; simp at herr
        | obj l => rw [hver] at herr; simp at herr

/-- C7 witness: on the concrete object, id is in the data view and is
unreserved, and the row the force save writes carries the version
attribute. -/
theorem C7_reserved_data_dict_only_witness :
    reservedName "id" = false ∧
    (dictGet [(VERSION_KEY, PyVal.int 1), ("id", PyVal.str "x")] VERSION_KEY).isSome = true := by
  have h := C7_reserved_data_dict_only [] c7Obj "id" (by decide)
  exact ⟨h.1, h.2 c7Schema none none true true true
    [(VERSION_KEY, PyVal.int 1), ("id", PyVal.str "x")] rfl rfl⟩

/-- An attribute read on an object flagged needs-reload is the read on
the reloaded object (flag cleared), at the cost of one extra store
fetch. -/
theorem tocoGetattr_needs_reload (store : Option (List (String × PyVal)))
    (comp : List (String × CompEntry)) (o : TObj) (name : String)
    (h : o.needsReloaded = true) :
    tocoGetattr store comp o name =
      (let r := tocoGetattr store comp
        { tocoReload store o with needsReloaded := false } name;
       (r.1, r.2.1, r.2.2 + 1)) := by
  simp only [tocoGetattr, h, if_true, Bool.false_eq_true, if_false]

/-- An attribute read performs one store fetch when the needs-reload
flag is set and none otherwise. -/
theorem tocoGetattr_fetch_count (store : Option (List (String × PyVal)))
    (comp : List (String × CompEntry)) (o : TObj) (name : String) :
    (tocoGetattr store comp o name).2.2 = if o.needsReloaded then 1 else 0 := by
  cases h : o.needsReloaded with
  | true => simp only [tocoGetattr, h, if_true]
  | false => simp only [tocoGetattr, h, Bool.false_eq_true, if_false]

/-- C6 counterexample to the original claim: constructing a stub from a
foreign-key reference resolved with the default keyword arguments (as
__getattribute__'s resolution path does) performs one get_item at
construction time, not zero - _from_fkey calls the initializer, whose
_attempt_load flag defaults to true. -/
theorem C6_fromFkey_counterexample :
    (tocoFromFkey (some [("id", PyVal.str "x"), (VERSION_KEY, PyVal.int 3)]) [] true
      [("id", PyVal.str "x")]).2 = 1 :=
  rfl

/-- C6 (amended): a reference-constructed stub performs one store fetch
at construction unless the caller passes _attempt_load=False (as
_json_deserialize does); the stub is marked needs-reload either way,
so the first attribute access performs a full reload - one further
fetch - and returns the value read from the reloaded state. -/
theorem C6_fromFkey_fetch_amended (store : Option (List (String × PyVal)))
    (comp : List (String × CompEntry)) (kwargs : List (String × PyVal)) (name : String) :
    (tocoFromFkey store comp true kwargs).2 = 1 ∧
    (tocoFromFkey store comp false kwargs).2 = 0 ∧
    ∀ al : Bool, (tocoFromFkey store comp al kwargs).1.needsReloaded = true ∧
      (tocoGetattr store comp (tocoFromFkey store comp al kwargs).1 name).2.2 = 1 ∧
      (tocoGetattr store comp (tocoFromFkey store comp al kwargs).1 name).1 =
        (tocoGetattr store comp
          { tocoReload store (tocoFromFkey store comp al kwargs).1 with
            needsReloaded := false } name).1 := by
  refine ⟨?_, rfl, ?_⟩
  · rcases store with _ | row <;> rfl
  · intro al
    refine ⟨rfl, ?_, ?_⟩
    · rw [tocoGetattr_fetch_count]
      rfl
    · rw [tocoGetattr_needs_reload store comp _ name rfl]

/-- Key conditions the shortcut translation builds: Key(h).eq(value),
a named operator on the range key applied to the remaining list
elements, and their conjunction. -/
inductive KeyCond where
  | keyEq : String → PyVal → KeyCond
  | keyOp : String → String → List PyVal → KeyCond
  | andK : KeyCond → KeyCond → KeyCond

/-- The key-condition step of _preprocess_search_params (the branch
taken when no KeyConditionExpression was passed): promote a truthy
value at the hash (resp. range) attribute name to HashKey (resp.
RangeKey) when that shortcut is absent or falsy, then - given a truthy
HashKey - build equality on the hash key, and for a truthy RangeKey:
a list value applies the operator named by its head to its tail
(getattr on a non-string head raises TypeError, an empty list
IndexError); any other value reaches Key(rangename).eq(rk_arg), where
rk_arg is an undefined name, so it raises NameError.  Returns the
condition built (none when no truthy HashKey, or when one was passed
in) or the exception raised. -/
def preprocessKeyCondition (hashname rangename : String)
    (params : List (String × PyVal)) (hasKCE : Bool) :
    Except PyErr (Option KeyCond) :=
  if hasKCE then .ok none
  else
    let params1 :=
      match dictGet params hashname with
      | some hv =>
          if !pyFalsy hv && (dictGet params "HashKey").all pyFalsy then
            dictSet (dictDel params hashname) "HashKey" hv
          else params
      | none => params
    let params2 :=
      match dictGet params1 rangename with
      | some rv =>
          if !pyFalsy rv && (dictGet params1 "RangeKey").all pyFalsy then
            dictSet (dictDel params1 rangename) "RangeKey" rv
          else params1
      | none => params1
    match dictGet params2 "HashKey" with
    | some hv =>
        if !pyFalsy hv then
          let hkc := KeyCond.keyEq hashname hv
          match dictGet params2 "RangeKey" with
          | some rv =>
              if !pyFalsy rv then
                match rv with
                | .arr (op :: args) =>
                    match op with
                    | .str opName => .ok (some (.andK hkc (.keyOp rangename opName args)))
                    | _ => .error .typeError
                | .arr [] => .error .indexError
                | _ => .error .nameError
              else .ok (some hkc)
          | none => .ok (some hkc)
        else .ok none
    | none => .ok none

/-- C8: the hash-only shortcut and the list-valued range shortcut do
translate as claimed, but a scalar (non-list) range value never yields
the claimed equality condition: that branch reads the undefined name
rk_arg and raises NameError. -/
theorem C8_range_shortcut_bug :
    preprocessKeyCondition "h" "r" [("h", .str "hv")] false =
      .ok (some (.keyEq "h" (.str "hv"))) ∧
    preprocessKeyCondition "h" "r"
        [("h", .str "hv"), ("r", .arr [.str "begins_with", .str "p"])] false =
      .ok (some (.andK (.keyEq "h" (.str "hv"))
        (.keyOp "r" "begins_with" [.str "p"]))) ∧
    preprocessKeyCondition "h" "r" [("h", .str "hv"), ("r", .str "rv")] false =
      .error .nameError :=
  ⟨rfl, rfl, rfl⟩

/-- A class position in the hierarchy under BaseTocoObject: the base
(which owns registry 0), or a named subclass that either declares a
_COMPOUND_ATTRS dict of its own (the registry id) or inherits. -/
inductive ClsTree where
  | base : ClsTree
  | sub : String → Option Nat → ClsTree → ClsTree

/-- Python attribute lookup for cls._COMPOUND_ATTRS: the nearest class
up the resolution order that declares its own dict; with no shadowing
declarations this is the base's. -/
def resolveRegistry : ClsTree → Nat
  | .base => 0
  | .sub _ (some i) _ => i
  | .sub _ none parent => resolveRegistry parent

/-- The heap of registry dicts, one per declared _COMPOUND_ATTRS. -/
def RegHeap : Type := Nat → List (String × CompEntry)

/-- BaseTocoObject._add_compound_attr called on class c: in-place
mutation (cls._COMPOUND_ATTRS[attrname] = ...) of the dict c's lookup
resolves. -/
def addCompoundAttr (h : RegHeap) (c : ClsTree) (attrname : String)
    (attrfunc : TObj → PyVal) (save : Bool) : RegHeap :=
  fun i => if i = resolveRegistry c then dictSet (h i) attrname ⟨attrfunc, save⟩ else h i

/-- C10: the compound registry is shared mutable class state: for any
two subclasses A and B neither declaring a registry of its own,
registering a compound attribute through A makes it resolve through B
as well - reading the name on a B instance that has no such attribute
of its own invokes the registered function. -/
theorem C10_compound_registry_shared (hp : RegHeap) (a b : ClsTree) (nm : String)
    (f : TObj → PyVal) (sv : Bool) (o : TObj)
    (ha : resolveRegistry a = 0) (hb : resolveRegistry b = 0)
    (hn : dictGet o.objDict nm = none) (hr : o.needsReloaded = false) :
    (tocoGetattr none (addCompoundAttr hp a nm f sv (resolveRegistry b)) o nm).1 =
      .val (f o) := by
  have hreg : addCompoundAttr hp a nm f sv (resolveRegistry b) =
      dictSet (hp 0) nm ⟨f, sv⟩ := by
    simp [addCompoundAttr, ha, hb]
  rw [hreg]
  simp [tocoGetattr, getattrLookup, hr, hn, dictGet_dictSet_self]

/-- C10 witness: on distinct subclasses A and B inheriting the base
registry, a function registered through A is invoked when the name is
read on a fresh B instance. -/
theorem C10_compound_registry_shared_witness :
    (tocoGetattr none (addCompoundAttr (fun _ => []) (ClsTree.sub "A" none .base) "fullname"
        (fun _ => PyVal.int 7) false (resolveRegistry (ClsTree.sub "B" none .base)))
      ⟨[], [], [], false, false⟩ "fullname").1 = .val (PyVal.int 7) :=
  C10_compound_registry_shared (fun _ => []) (ClsTree.sub "A" none .base)
    (ClsTree.sub "B" none .base) "fullname" (fun _ => PyVal.int 7) false
    ⟨[], [], [], false, false⟩ rfl rfl rfl rfl
